import Mathlib

/-
Verification development for the PhotoCard 2.0 render pipeline.

The JavaScript sources (apps/worker/src/worker.js, apps/api/src/index.js) are
embedded shallowly: JS strings become lists of characters, fallible async
operations (network fetches, the headless browser, the Job Store) become
explicit outcome parameters, and each embedded definition mirrors one source
function.  Theorems at the end settle the specification claims against these
definitions.
-/

namespace PhotoCard

/-- A JavaScript string, embedded as its list of characters. -/
abbrev Str := List Char

/-- Turn a Lean string literal into the embedding's string type. -/
def lit (s : String) : Str := s.data

/-- `startsWith p s`: does `s` begin with `p`?  (JS `String.prototype.startsWith`,
also the character-by-character test used by the other string operations.) -/
def startsWith : Str → Str → Bool
  | [], _ => true
  | _ :: _, [] => false
  | p :: ps, c :: cs => if p = c then startsWith ps cs else false

/-- `containsStr pat s`: does `pat` occur as a contiguous substring of `s`?
(JS `String.prototype.includes`.) -/
def containsStr (pat : Str) : Str → Bool
  | [] => pat.isEmpty
  | c :: t => startsWith pat (c :: t) || containsStr pat t

/-- Replace the first occurrence of `pat` in `s` by `rep`; `s` unchanged if
`pat` does not occur.  (JS `String.prototype.replace` with a non-global
pattern.) -/
def replaceFirst (pat rep : Str) : Str → Str
  | [] => []
  | c :: t =>
      if startsWith pat (c :: t) then rep ++ (c :: t).drop pat.length
      else c :: replaceFirst pat rep t

/-- Split at the first occurrence of the character `ch`: `(before, after)`,
the delimiter dropped; `(s, [])` when `ch` does not occur. -/
def breakOn (ch : Char) : Str → Str × Str
  | [] => ([], [])
  | c :: t =>
      if c = ch then ([], t)
      else
        let p := breakOn ch t
        (c :: p.1, p.2)

/-- Split on every occurrence of the character `ch` (JS `String.prototype.split`
with a one-character separator); always returns at least one piece. -/
def splitOnCh (ch : Char) : Str → List Str
  | [] => [[]]
  | c :: t =>
      match splitOnCh ch t with
      | [] => [[]]
      | h :: r => if c = ch then [] :: h :: r else (c :: h) :: r

/-- The last `/`-separated segment of a path (Node `path.basename`, for the
argument shapes the worker builds: no trailing slash). -/
def basenamePart (p : Str) : Str := (splitOnCh '/' p).getLastD []

/-- Split a basename at its last dot, ignoring a dot in first position
(helper for `extname`): `some (before, fromDotInclusive)` for the last `.` in
the list, scanning only past the first character's successors. -/
def lastDotSplit : Str → Option (Str × Str)
  | [] => none
  | c :: t =>
      match lastDotSplit t with
      | some (a, e) => some (c :: a, e)
      | none => if c = '.' then some ([], c :: t) else none

/-- Node `path.extname`: the extension of the last path segment, from its last
dot (inclusive) to the end; empty when the segment has no dot past its first
character. -/
def extname (p : Str) : Str :=
  match basenamePart p with
  | [] => []
  | _ :: t =>
      match lastDotSplit t with
      | some (_, e) => e
      | none => []

/-- Authority scan: split off the characters up to the first `/` or `?`
(the host-and-port part of a URL), returning `(authority, rest)` with the
delimiter kept at the head of `rest`. -/
def breakAuth : Str → Str × Str
  | [] => ([], [])
  | c :: t =>
      if c = '/' ∨ c = '?' then ([], c :: t)
      else
        let p := breakAuth t
        (c :: p.1, p.2)

/-- The parts of a parsed absolute URL. -/
structure UrlParts where
  scheme : Str
  host : Str
  port : Str
  pathname : Str
  query : Str
deriving DecidableEq

/-- The part of the URL parser that runs on the text before the first `?`:
parse `scheme://host[:port][/path]`, attaching the already-split `query`. -/
def parsePre (beforeQ query : Str) : Option UrlParts :=
  let sr := breakOn ':' beforeQ
  if sr.1.isEmpty then none
  else if startsWith (lit "//") sr.2 then
    let ap := breakAuth (sr.2.drop 2)
    if ap.1.isEmpty then none
    else
      let hp := breakOn ':' ap.1
      some { scheme := sr.1, host := hp.1, port := hp.2,
             pathname := if ap.2.isEmpty then lit "/" else ap.2,
             query := query }
  else none

/-- Modelled behaviour of the runtime URL library (`new URL`), simplified to
absolute `scheme://host[:port][/path][?query]` strings: parsing fails (the
constructor throws) when the `://` separator, the scheme or the host is
missing.  `query` is everything after the first `?` (without it); an absent
path reads as `/`, as the library reports it.  `#` fragments are not
modelled; percent-decoding happens when a query value is read back (see
`getParam`), matching the runtime, which keeps `search` raw. -/
def urlParse (u : Str) : Option UrlParts :=
  parsePre (breakOn '?' u).1 (breakOn '?' u).2

/-- One piece of a query string, split at its first `=`: `(name, value)`. -/
def paramSplit (piece : Str) : Str × Str := breakOn '=' piece

/-- Value of one hexadecimal digit, as the percent-decoder reads it. -/
def hexVal (c : Char) : Option Nat :=
  if '0' ≤ c ∧ c ≤ '9' then some (c.toNat - '0'.toNat)
  else if 'a' ≤ c ∧ c ≤ 'f' then some (c.toNat - 'a'.toNat + 10)
  else if 'A' ≤ c ∧ c ≤ 'F' then some (c.toNat - 'A'.toNat + 10)
  else none

/-- The `application/x-www-form-urlencoded` decoding `searchParams.get`
applies to a query value: `+` becomes a space, a valid `%HH` escape becomes
the character of that byte, and an invalid escape (`%` not followed by two
hex digits) is left verbatim, scanning resuming right after the `%`.  Escape
sequences for bytes beyond ASCII, which the runtime decodes as UTF-8, are out
of the modelled range and read byte-wise. -/
def percentDecode : Str → Str
  | [] => []
  | '%' :: h1 :: h2 :: t =>
      match hexVal h1, hexVal h2 with
      | some a, some b => Char.ofNat (16 * a + b) :: percentDecode t
      | _, _ => '%' :: percentDecode (h1 :: h2 :: t)
  | c :: t => if c = '+' then ' ' :: percentDecode t else c :: percentDecode t

/-- The lookup half of `searchParams.get(name)`: the raw (still encoded)
value of the first `&`-separated piece of the query whose name matches;
`none` when no piece matches. -/
def getParamRaw (q : Str) (name : Str) : Option Str :=
  match (splitOnCh '&' q).filter (fun p => (paramSplit p).1 = name) with
  | [] => none
  | p :: _ => some (paramSplit p).2

/-- Modelled `searchParams.get(name)`: the value of the first matching
`&`-separated piece of the query, percent-decoded as the runtime returns it;
`none` when no piece matches. -/
def getParam (q : Str) (name : Str) : Option Str :=
  (getParamRaw q name).map percentDecode

/-- The character class of the drive file-id regex: `[a-zA-Z0-9_-]`. -/
def isIdChar (c : Char) : Bool := c.isAlphanum || c = '_' || c = '-'

/-- Does the regex `/\/d\/([a-zA-Z0-9_-]+)/` match at the very start of `s`?
Returns the captured group on success. -/
def dMatchAt (s : Str) : Option Str :=
  if startsWith (lit "/d/") s then
    let r := (s.drop 3).takeWhile isIdChar
    if r.isEmpty then none else some r
  else none

/-- First match of the regex `/\/d\/([a-zA-Z0-9_-]+)/` anywhere in `s`
(JS `String.prototype.match`, returning the captured file id). -/
def matchDSlash : Str → Option Str
  | [] => none
  | c :: t =>
      match dMatchAt (c :: t) with
      | some r => some r
      | none => matchDSlash t

/-- One hexadecimal digit, upper case. -/
def hexDigit (n : Nat) : Char :=
  if n < 10 then Char.ofNat ('0'.toNat + n) else Char.ofNat ('A'.toNat + (n - 10))

/-- Is `c` left unescaped by `encodeURIComponent`? -/
def uriUnreserved (c : Char) : Bool :=
  c.isAlphanum || c = '-' || c = '_' || c = '.' || c = '!' || c = '~'
    || c = '*' || c = '\'' || c = '(' || c = ')'

/-- Modelled JS `encodeURIComponent`, for the ASCII strings the worker builds:
unreserved characters pass through, anything else becomes `%XX`. -/
def encodeURIComponent (s : Str) : Str :=
  s.flatMap fun c =>
    if uriUnreserved c then [c]
    else ['%', hexDigit (c.toNat / 16 % 16), hexDigit (c.toNat % 16)]

/-- `API_BASE.replace(/\/$/, '')`: strip one trailing slash. -/
def stripTrailingSlash (s : Str) : Str :=
  if s.getLast? = some '/' then s.dropLast else s

/-- The direct-view form `normalizeImageUrl` produces for a drive file id. -/
def driveDirect (fileId : Str) : Str :=
  lit "https://drive.google.com/uc?export=view&id=" ++ fileId

/-- The dropbox arm of `normalizeImageUrl` (worker.js lines 113-120): with a
`?` present, replace the first `?dl=0` (then the first `?dl=1`) by `?raw=1`;
with no `?`, append `?raw=1`; non-dropbox strings pass through. -/
def dropboxNormalize (u : Str) : Str :=
  if containsStr (lit "dropbox.com") u then
    if containsStr (lit "?") u then
      replaceFirst (lit "?dl=1") (lit "?raw=1") (replaceFirst (lit "?dl=0") (lit "?raw=1") u)
    else u ++ lit "?raw=1"
  else u

/-- `normalizeImageUrl` (worker.js lines 99-124).  For a string containing
`drive.google.com`: the file id is the first `/d/<id>` regex match anywhere in
the string, else a non-empty `id` query parameter as `searchParams.get`
returns it, percent-decoded; a found id yields the direct-view URL.
`new URL(u)` throwing is caught and returns `u` unchanged
(so a drive-looking string that does not parse is never rewritten, and the
dropbox arm is skipped too).  Otherwise the dropbox arm runs. -/
def normalizeImageUrl (u : Str) : Str :=
  if u.isEmpty then u
  else if containsStr (lit "drive.google.com") u then
    match urlParse u with
    | none => u
    | some p =>
        let fileId :=
          match matchDSlash u with
          | some s => some s
          | none =>
              match getParam p.query (lit "id") with
              | some v => if v.isEmpty then none else some v
              | none => none
        match fileId with
        | some fid => driveDirect fid
        | none => dropboxNormalize u
  else dropboxNormalize u

/-- A JSON value as the API receives it in a request body. -/
inductive JVal
  | str (s : Str)
  | num (n : Int)
  | boolean (b : Bool)
  | null
deriving DecidableEq

/-- JS truthiness of a JSON value. -/
def JVal.truthy : JVal → Bool
  | .str s => !s.isEmpty
  | .num n => n != 0
  | .boolean b => b
  | .null => false

/-- JS template-string coercion of a JSON value. -/
def JVal.toStr : JVal → Str
  | .str s => s
  | .num n => lit (toString n)
  | .boolean b => if b then lit "true" else lit "false"
  | .null => lit "null"

/-- A request body: a JSON object as a key-value list (`JSON.parse` keeps the
last of duplicate keys, so lookup takes the last occurrence). -/
def bodyGet (body : List (Str × JVal)) (k : Str) : Option JVal :=
  match body with
  | [] => none
  | (k', v) :: rest =>
      match bodyGet rest k with
      | some w => some w
      | none => if k' = k then some v else none

/-- A persisted Job record (the prisma `job` row). -/
structure Job where
  id : Str
  headline : Str
  backgroundUrl : Str
  newsImageUrl : Str
  templateName : Str
  status : JVal
  outputUrl : Option Str
  error : Option Str
  createdAt : Nat
deriving DecidableEq

/-- The record `POST /jobs` creates (index.js lines 129-159): the request
fields plus `status: 'PENDING'`; `outputUrl` and `error` start unset. -/
def freshJob (id headline backgroundUrl newsImageUrl : Str) (createdAt : Nat) : Job :=
  { id := id, headline := headline, backgroundUrl := backgroundUrl,
    newsImageUrl := newsImageUrl, templateName := lit "default",
    status := JVal.str (lit "PENDING"), outputUrl := none, error := none,
    createdAt := createdAt }

/-- `PUT /jobs/:id` (index.js lines 185-197): destructure `status` and
`outputFileName` from the body; a truthy `status` is written as given, a
truthy `outputFileName` writes `outputUrl = PUBLIC_BASE + '/' + outputFileName`;
every other column of the row is untouched (prisma updates only the keys of
`data`). -/
def putJobsId (publicBase : Str) (j : Job) (body : List (Str × JVal)) : Job :=
  let status := bodyGet body (lit "status")
  let outputFileName := bodyGet body (lit "outputFileName")
  let j1 :=
    match status with
    | some v => if v.truthy then { j with status := v } else j
    | none => j
  match outputFileName with
  | some v =>
      if v.truthy then { j1 with outputUrl := some (publicBase ++ lit "/" ++ v.toStr) }
      else j1
  | none => j1

/-- Outcome of one network fetch made by the worker: the promise rejects, the
response is not ok, or it succeeds with a `content-type` header (empty list
for an absent header) and a flag telling whether piping the response body to
the cache file completes (a stream error rejects). -/
inductive FetchO
  | throws
  | notOk
  | ok (contentType : Str) (streamOk : Bool)

/-- Does this fetch outcome fail to yield a usable response?  (Rejected
promise, or a response with `ok` false.) -/
def FetchO.fails : FetchO → Bool
  | .throws => true
  | .notOk => true
  | .ok _ _ => false

/-- The worker-side resolution state: the file names present in the shared
output directory, and how many network fetches have been performed. -/
structure ResSt where
  files : List Str
  fetches : Nat
deriving DecidableEq

/-- Count one fetch attempt. -/
def bumpFetch (st : ResSt) : ResSt := { st with fetches := st.fetches + 1 }

/-- A finished cache file appears in the output directory. -/
def addFile (st : ResSt) (name : Str) : ResSt := { st with files := name :: st.files }

/-- `fs.existsSync` on `OUTPUT_DIR/<name>`. -/
def hasFile (st : ResSt) (name : Str) : Bool := st.files.contains name

/-- The reference the worker hands the renderer for a cached file:
`API_BASE.replace(/\/$/,'') + '/output/' + encodeURIComponent(name)`. -/
def apiOutputRef (apiBase name : Str) : Str :=
  stripTrailingSlash apiBase ++ lit "/output/" ++ encodeURIComponent name

/-- The try-block of `fetchDriveViaApiIfNeeded` (worker.js lines 132-169),
with its throw sites explicit: `new URL` on an unparsable string, a rejected
fetch, and a stream error all produce `.error` (carrying the state reached),
which the enclosing catch turns into the original URL.  The cache name is
`{jobId}-{role}-{fileId}{ext}`; a missing extension defaults to `.jpg`; a
missing file id falls back to `String(Date.now())` (the `nowStr` argument,
since `searchParams.get('id') || ...` also rejects an empty id). -/
def fetchDriveBody (outputDir apiBase jobId role u nowStr : Str) (st : ResSt)
    (fo : FetchO) : Except ResSt (Str × ResSt) :=
  match urlParse u with
  | none => .error st
  | some parsed =>
      if containsStr (lit "drive.google.com") parsed.host then
        let fileId :=
          match matchDSlash parsed.pathname with
          | some m => m
          | none =>
              match getParam parsed.query (lit "id") with
              | some v => if v.isEmpty then nowStr else v
              | none => nowStr
        let extFromPath :=
          if (extname parsed.pathname).isEmpty then lit ".jpg" else extname parsed.pathname
        let localName := jobId ++ lit "-" ++ role ++ lit "-" ++ fileId ++ extFromPath
        let localPath := outputDir ++ lit "/" ++ localName
        if hasFile st localName then .ok (apiOutputRef apiBase (basenamePart localPath), st)
        else
          let st1 := bumpFetch st
          match fo with
          | .throws => .error st1
          | .notOk => .ok (u, st1)
          | .ok _ streamOk =>
              if streamOk then
                .ok (apiOutputRef apiBase (basenamePart localPath), addFile st1 localName)
              else .error st1
      else .ok (u, st)

/-- `fetchDriveViaApiIfNeeded` (worker.js lines 130-174): falsy input passes
through, and the catch around the body degrades every thrown error to the
original URL. -/
def fetchDriveViaApiIfNeeded (outputDir apiBase jobId role u nowStr : Str)
    (st : ResSt) (fo : FetchO) : Str × ResSt :=
  if u.isEmpty then (u, st)
  else
    match fetchDriveBody outputDir apiBase jobId role u nowStr st fo with
    | .ok v => v
    | .error st' => (u, st')

/-- Extension inferred from the response `content-type` when the URL path has
none (worker.js lines 202-209). -/
def ctExt (ct : Str) : Str :=
  if containsStr (lit "image/jpeg") ct then lit ".jpg"
  else if containsStr (lit "image/png") ct then lit ".png"
  else if containsStr (lit "image/webp") ct then lit ".webp"
  else if containsStr (lit "svg") ct then lit ".svg"
  else lit ".jpg"

/-- The try-block of `prefetchRemoteImage` (worker.js lines 180-224), throw
sites explicit as in `fetchDriveBody`.  The existence check uses the name
built from the URL-path extension (possibly empty); the file is written under
the name completed with the content-type extension, so the two names differ
exactly when the URL path carries no extension.  (`.split('?')[0]` on the
extension is the identity here: a parsed pathname holds no `?`.) -/
def prefetchBody (hash : Str → Str) (outputDir apiBase jobId role u : Str)
    (st : ResSt) (fo : FetchO) : Except ResSt (Str × ResSt) :=
  if startsWith (lit "file://") u then .ok (u, st)
  else
    match urlParse u with
    | none => .error st
    | some parsed =>
        if parsed.scheme = lit "http" ∨ parsed.scheme = lit "https" then
          let h := hash u
          let ext := extname parsed.pathname
          let localName := jobId ++ lit "-" ++ role ++ lit "-" ++ h ++ ext
          let localPath := outputDir ++ lit "/" ++ localName
          if hasFile st localName then .ok (apiOutputRef apiBase (basenamePart localPath), st)
          else
            let st1 := bumpFetch st
            match fo with
            | .throws => .error st1
            | .notOk => .ok (u, st1)
            | .ok ct streamOk =>
                let ext2 := if ext.isEmpty then ctExt ct else ext
                let finalLocalName := jobId ++ lit "-" ++ role ++ lit "-" ++ h ++ ext2
                let finalLocalPath := outputDir ++ lit "/" ++ finalLocalName
                if streamOk then
                  .ok (apiOutputRef apiBase (basenamePart finalLocalPath), addFile st1 finalLocalName)
                else .error st1
        else .ok (u, st)

/-- `prefetchRemoteImage` (worker.js lines 178-229): falsy input passes
through, and the catch degrades every thrown error to the original URL. -/
def prefetchRemoteImage (hash : Str → Str) (outputDir apiBase jobId role u : Str)
    (st : ResSt) (fo : FetchO) : Str × ResSt :=
  if u.isEmpty then (u, st)
  else
    match prefetchBody hash outputDir apiBase jobId role u st fo with
    | .ok v => v
    | .error st' => (u, st')

/-- The four fetch outcomes one run of the resolution section consumes. -/
structure ResolveOracles where
  driveNews : FetchO
  driveBg : FetchO
  prefNews : FetchO
  prefBg : FetchO

/-- The resolution section of `renderToFile` (worker.js lines 231-253), in
source order: drive fetch for the news URL, drive fetch for the background
URL, then the generic prefetch for each (each prefetch call inside its own
try/catch; the outer try around the drive calls never fires because both
embedded functions are total).  Returns the resolved (news, background) pair
and the final state. -/
def resolveAssets (hash : Str → Str) (outputDir apiBase jobId : Str)
    (news0 bg0 nowStr : Str) (st : ResSt) (o : ResolveOracles) :
    (Str × Str) × ResSt :=
  let r1 :=
    if !news0.isEmpty && containsStr (lit "drive.google.com") news0 then
      fetchDriveViaApiIfNeeded outputDir apiBase jobId (lit "news") news0 nowStr st o.driveNews
    else (news0, st)
  let r2 :=
    if !bg0.isEmpty && containsStr (lit "drive.google.com") bg0 then
      fetchDriveViaApiIfNeeded outputDir apiBase jobId (lit "bg") bg0 nowStr r1.2 o.driveBg
    else (bg0, r1.2)
  let r3 :=
    if !r1.1.isEmpty then
      prefetchRemoteImage hash outputDir apiBase jobId (lit "news") r1.1 r2.2 o.prefNews
    else (r1.1, r2.2)
  let r4 :=
    if !r2.1.isEmpty then
      prefetchRemoteImage hash outputDir apiBase jobId (lit "bg") r2.1 r3.2 o.prefBg
    else (r2.1, r3.2)
  ((r3.1, r4.1), r4.2)

/-- Decimal rendering of a number interpolated into the template. -/
def natStr (n : Nat) : Str := lit (toString n)

/-- JS `String.prototype.toLowerCase`, for the ASCII paths the worker uses. -/
def lowerStr (s : Str) : Str := s.map Char.toLower

/-- JS `String.prototype.endsWith`. -/
def endsWith (pat s : Str) : Bool := startsWith pat.reverse s.reverse

/-- The logo slot of the template (worker.js line 83): an `<img>` when a logo
path resolved, a text span otherwise. -/
def logoSlot (logoPath : Str) : Str :=
  if !logoPath.isEmpty then
    lit "<img class=\"logo-img\" src=\"" ++ logoPath ++ lit "\" alt=\"Dhaka Heralds\"/>"
  else lit "<span>Dhaka Heralds</span>"

/-- The background slot (worker.js line 84): an `<img class=\"bgimg\">` when a
background URL is present, nothing otherwise. -/
def bgSlot (backgroundUrl : Str) : Str :=
  if !backgroundUrl.isEmpty then
    lit "<img class=\"bgimg\" src=\"" ++ backgroundUrl ++ lit "\" alt=\"background\"/>"
  else []

/-- The news-image slot (worker.js line 87): the card with the `newsimg`
element when a news URL is present, nothing otherwise. -/
def cardSlot (newsImageUrl : Str) : Str :=
  if !newsImageUrl.isEmpty then
    lit "<div class=\"card\"><img class=\"newsimg\" src=\"" ++ newsImageUrl ++ lit "\"/></div>"
  else []

/-- `templateHTML` (worker.js lines 24-92), the template literal transcribed
with each `${...}` interpolation replaced by concatenation (braces written as
`\x7b`/`\x7d`).  Absent optional JS arguments are embedded as the empty
string, which matches their use: every interpolated argument is either tested
for truthiness first or defaulted with `?? ''`.  The date stamp
`new Date().toLocaleDateString('bn-BD', ...)` is the `dateStr` argument. -/
def templateHTML (width height : Nat) (headline backgroundUrl newsImageUrl logoPath : Str)
    (logoIsSvg : Bool) (logoSize logoPad : Nat) (dateStr : Str) : Str :=
  lit "\n<!doctype html>\n<html>\n<head>\n<meta charset=\"utf-8\"/>\n<style>\n  :root\x7b --logo-size: "
  ++ natStr logoSize ++ lit "px; --logo-pad: " ++ natStr logoPad
  ++ lit "px \x7d\n  @font-face \x7b font-family: sans; src: local(\"Arial\"); \x7d\n  body\x7b\n    margin:0; width:"
  ++ natStr width ++ lit "px; height:" ++ natStr height
  ++ lit "px; \n    font-family:sans; color:#fff;\n    /* fallback background color while a background image loads */\n    background:#d1d5db; /* light gray */\n    position:relative; overflow:hidden; display:block;\n  \x7d\n  /* subtle vignette + texture */\n  .overlay\x7bposition:absolute; inset:0; background:linear-gradient(rgba(0,0,0,0.18), rgba(0,0,0,0.25)); mix-blend-mode:multiply\x7d\n  /* glassy date badge */\n  .date\x7bposition:absolute; top:24px; right:24px; padding:8px 12px; border-radius:12px; font-weight:700; color:#fff; background: linear-gradient(180deg, rgba(255,255,255,0.06), rgba(255,255,255,0.02)); backdrop-filter: blur(6px); border:1px solid rgba(255,255,255,0.06); box-shadow: 0 6px 18px rgba(0,0,0,0.25)\x7d\n  /* logo container: square with equal padding around the logo image */\n  .logo\x7bposition:absolute; top:24px; left:24px; display:flex; align-items:center; justify-content:center; border-radius:14px; gap:0; padding:var(--logo-pad); width:calc(var(--logo-size) + (var(--logo-pad) * 2)); height:calc(var(--logo-size) + (var(--logo-pad) * 2));\x7d\n  /* raster logos get a white pill for contrast, SVG logos often contain their own color/white fill so give them a dark pill */\n  /* adjust pill color for raster vs svg */\n  .logo \x7b background: rgba(255,255,255,0.96); \x7d\n  .logo.logo-svg \x7b background: rgba(0,0,0,0.6); \x7d\n  .logo-img\x7bwidth:var(--logo-size); height:var(--logo-size); object-fit:contain; display:block\x7d\n  .logo .logo-img\x7bbackground:transparent; border-radius:8px; border:1px solid rgba(0,0,0,0.06)\x7d\n  .headline\x7b\n    position:absolute; left:40px; right:40px; bottom:120px;\n    font-size:56px; line-height:1.2; text-shadow:0 6px 18px rgba(0,0,0,.7);\n    text-align:center;\n  \x7d\n  /* card behind the news image to create depth (like the screenshot) */\n  .card\x7b\n    position:absolute; left:50%; transform:translateX(-50%);\n    bottom:300px; width:620px; height:620px; display:flex; align-items:center; justify-content:center;\n    border-radius:36px; background: linear-gradient(180deg, rgba(255,255,255,0.02), rgba(255,255,255,0.01));\n    box-shadow: 0 30px 80px rgba(0,0,0,0.45); backdrop-filter: blur(12px); border:1px solid rgba(255,255,255,0.04);\n  \x7d\n  .newsimg\x7b\n    display:block; width:540px; height:540px; object-fit:cover; border-radius:24px; box-shadow:0 10px 30px rgba(0,0,0,.5)\n  \x7d\n  /* background image element (we use an <img> so Playwright can wait for it to load) */\n  .bgimg\x7bposition:absolute; inset:0; width:100%; height:100%; object-fit:cover; z-index:-3\x7d\n  /* subtle vignette to integrate bg with glass card */\n  .bg-vignette\x7bposition:absolute; inset:0; background: radial-gradient(closest-side at 50% 40%, rgba(0,0,0,0.14), rgba(0,0,0,0.28)); z-index:-1\x7d\n  /* glassy CTA */\n  .cta\x7b\n    position:absolute; left:50%; transform:translateX(-50%); bottom:40px;\n    padding:12px 18px; border-radius:12px; font-weight:800; color:#fff;\n    background: linear-gradient(180deg, rgba(255,255,255,0.06), rgba(255,255,255,0.02));\n    backdrop-filter: blur(8px);\n    border: 1px solid rgba(255,255,255,0.06);\n    box-shadow: 0 8px 30px rgba(0,0,0,0.35);\n  \x7d\n</style>\n</head>\n<body>\n  <div class=\"overlay\"></div>\n  <div class=\"logo "
  ++ (if logoIsSvg then lit "logo-svg" else []) ++ lit "\">" ++ logoSlot logoPath
  ++ lit "</div>\n  " ++ bgSlot backgroundUrl
  ++ lit "\n  <div class=\"bg-vignette\"></div>\n  <div class=\"date\">" ++ dateStr
  ++ lit "</div>\n  " ++ cardSlot newsImageUrl
  ++ lit "\n  <div class=\"headline\">" ++ headline
  ++ lit "</div>\n  <div class=\"cta\">Read More</div>\n</body>\n</html>\n"

/-- Observable steps of the capture stage (worker.js lines 323-362). -/
inductive BrowserEvent
  | launched
  | pageOpened
  | contentSet
  | waitedNews
  | waitedBg
  | settled
  | captured
  | closed
deriving DecidableEq

/-- The capture stage of `renderToFile` (worker.js lines 323-362) as a trace
semantics over the outcomes of its fallible steps.  `chromium.launch` and
`browser.newPage` raise to the caller on failure; `page.setContent` and the
two asset-load waits sit in their own try/catch, so their outcomes cannot
change control flow (the wait steps run only when the corresponding URL is
present); `page.screenshot` raises to the caller on failure.  `browser.close`
runs only after a successful screenshot: the function has no try/finally, so
an exception from `newPage` or `screenshot` leaves the browser open. -/
def renderBrowserPhase (launchO newPageO screenshotO : Except Unit Unit)
    (hasNews hasBg : Bool) (fileName : Str) :
    List BrowserEvent × Except Unit Str :=
  match launchO with
  | .error e => ([], .error e)
  | .ok _ =>
      match newPageO with
      | .error e => ([.launched], .error e)
      | .ok _ =>
          let t := [BrowserEvent.launched, .pageOpened, .contentSet]
            ++ (if hasNews then [BrowserEvent.waitedNews] else [])
            ++ (if hasBg then [BrowserEvent.waitedBg] else [])
            ++ [BrowserEvent.settled]
          match screenshotO with
          | .error e => (t, .error e)
          | .ok _ => (t ++ [BrowserEvent.captured, .closed], .ok fileName)

/-- The oracle inputs one `renderToFile` run consumes: resolution fetches plus
the capture-stage outcomes. -/
structure RenderOracles where
  res : ResolveOracles
  launchO : Except Unit Unit
  newPageO : Except Unit Unit
  screenshotO : Except Unit Unit

/-- The payload a queued render job carries (`{id, headline, backgroundUrl,
newsImageUrl}`); absent optional fields are embedded as the empty string,
which the code distinguishes only through truthiness. -/
structure JobPayload where
  id : Str
  headline : Str
  backgroundUrl : Str
  newsImageUrl : Str

/-- `renderToFile` (worker.js lines 94-363): the output file name is
`${id}.png`; both image URLs are normalized, then resolved (drive proxy and
generic prefetch), the document is composed by `templateHTML` (the logo-asset
scan of lines 255-321 is modelled by the `logoPath` argument: it reads the
filesystem and affects only the composed markup), and the capture stage runs
with a wait for each image element that is present.  Returns the capture
trace, the result (the file name on success), and the resolution state. -/
def renderToFile (hash : Str → Str) (outputDir apiBase : Str) (width height : Nat)
    (payload : JobPayload) (logoPath dateStr nowStr : Str) (st : ResSt)
    (o : RenderOracles) : List BrowserEvent × Except Unit Str × ResSt :=
  let fileName := payload.id ++ lit ".png"
  let bg0 := normalizeImageUrl payload.backgroundUrl
  let news0 := normalizeImageUrl payload.newsImageUrl
  let r := resolveAssets hash outputDir apiBase payload.id news0 bg0 nowStr st o.res
  let news2 := r.1.1
  let bg2 := r.1.2
  let logoIsSvg := !logoPath.isEmpty && endsWith (lit ".svg") (lowerStr logoPath)
  let _doc := templateHTML width height payload.headline bg2 news2 logoPath
    logoIsSvg 84 12 dateStr
  let pr :=
    renderBrowserPhase o.launchO o.newPageO o.screenshotO
      (!news2.isEmpty) (!bg2.isEmpty) fileName
  (pr.1, pr.2, r.2)

/-- The body of the worker's `PUT` marking a job `PROCESSING`
(worker.js line 423). -/
def processingBody : List (Str × JVal) :=
  [(lit "status", JVal.str (lit "PROCESSING"))]

/-- The body of the worker's `PUT` marking a job `DONE` with its output file
name (worker.js line 429). -/
def doneBody (fileName : Str) : List (Str × JVal) :=
  [(lit "status", JVal.str (lit "DONE")), (lit "outputFileName", JVal.str fileName)]

/-- The body of the worker's `PUT` marking a job `ERROR` (worker.js line 438):
only the status — no error summary field exists in this interface. -/
def errorBody : List (Str × JVal) :=
  [(lit "status", JVal.str (lit "ERROR"))]

/-- What one run of the job handler did: the bodies of the `PUT /jobs/:id`
attempts in order, and whether `renderToFile` was invoked at all. -/
structure HandlerRun where
  puts : List (List (Str × JVal))
  renderInvoked : Bool
deriving DecidableEq

/-- The job handler of `createWorkerWithRetry` (worker.js lines 416-443).
The `PROCESSING` report, the render and the `DONE` report share one try
block: if the `PROCESSING` report itself raises, control jumps to the catch
without ever calling `renderToFile`, and the catch attempts an `ERROR`
report (whose own failure is swallowed by the inner catch and changes
nothing observable beyond the attempt). -/
def handleRenderJob (procO : Except Unit Unit) (renderO : Except Unit Str)
    (doneO : Except Unit Unit) : HandlerRun :=
  match procO with
  | .error _ => { puts := [processingBody, errorBody], renderInvoked := false }
  | .ok _ =>
      match renderO with
      | .error _ => { puts := [processingBody, errorBody], renderInvoked := true }
      | .ok f =>
          match doneO with
          | .ok _ => { puts := [processingBody, doneBody f], renderInvoked := true }
          | .error _ => { puts := [processingBody, doneBody f, errorBody], renderInvoked := true }

/-! Basic facts about the embedded string operations. -/

theorem startsWith_prefix_iff (p s : Str) : startsWith p s = true ↔ p <+: s := by
  induction p generalizing s with
  | nil => simp [startsWith]
  | cons c cs ih =>
      cases s with
      | nil => simp [startsWith]
      | cons a t =>
          by_cases h : c = a
          · subst h
            simp [startsWith, ih, List.cons_prefix_cons]
          · simp [startsWith, h, List.cons_prefix_cons]

theorem containsStr_infix_iff (p s : Str) : containsStr p s = true ↔ p <:+: s := by
  induction s with
  | nil =>
      simp [containsStr, List.isEmpty_iff]
  | cons c t ih =>
      simp [containsStr, Bool.or_eq_true, startsWith_prefix_iff, ih, List.infix_cons_iff]

theorem containsStr_of_infix {p s : Str} (h : p <:+: s) : containsStr p s = true :=
  (containsStr_infix_iff p s).mpr h

theorem contains_append_right {p s : Str} (t : Str) (h : containsStr p s = true) :
    containsStr p (s ++ t) = true :=
  containsStr_of_infix (((containsStr_infix_iff p s).mp h).trans (List.prefix_append s t).isInfix)

theorem contains_append_left {p t : Str} (s : Str) (h : containsStr p t = true) :
    containsStr p (s ++ t) = true :=
  containsStr_of_infix (((containsStr_infix_iff p t).mp h).trans (List.suffix_append s t).isInfix)

theorem contains_singleton_iff (c : Char) (s : Str) : containsStr [c] s = true ↔ c ∈ s := by
  rw [containsStr_infix_iff]
  constructor
  · intro h
    exact h.subset (List.mem_singleton_self c)
  · intro h
    rcases List.append_of_mem h with ⟨a, b, rfl⟩
    exact ⟨a, b, by simp⟩

theorem exists_first_occ {c : Char} {s : Str} (h : c ∈ s) :
    ∃ a b, s = a ++ c :: b ∧ c ∉ a := by
  induction s with
  | nil => cases h
  | cons x t ih =>
      by_cases hx : x = c
      · exact ⟨[], t, by simp [hx], by simp⟩
      · have hc : c ∈ t := by
          rcases List.mem_cons.mp h with h' | h'
          · exact absurd h'.symm hx
          · exact h'
        rcases ih hc with ⟨a, b, rfl, ha⟩
        refine ⟨x :: a, b, rfl, ?_⟩
        intro hmem
        rcases List.mem_cons.mp hmem with h' | h'
        · exact hx h'.symm
        · exact ha h'

theorem startsWith_append_sep {L : Str} {ch : Char} (hch : ch ∉ L) (x y : Str) :
    startsWith L (x ++ ch :: y) = startsWith L x := by
  induction L generalizing x with
  | nil => simp [startsWith]
  | cons l L' ih =>
      cases x with
      | nil =>
          have hl : ¬ l = ch := fun h => hch (by simp [h])
          simp [startsWith, hl]
      | cons a x' =>
          by_cases h : l = a
          · subst h
            simpa [startsWith] using ih (fun h' => hch (List.mem_cons_of_mem _ h')) x'
          · simp [startsWith, h]

theorem contains_append_sep {L : Str} {ch : Char} (hL : L ≠ []) (hch : ch ∉ L) (x y : Str) :
    containsStr L (x ++ ch :: y) = (containsStr L x || containsStr L y) := by
  induction x with
  | nil =>
      cases L with
      | nil => exact absurd rfl hL
      | cons l L' =>
          have hl : ¬ l = ch := fun h => hch (by simp [h])
          simp [containsStr, startsWith, hl]
  | cons a x' ih =>
      have e1 : (a :: x') ++ ch :: y = a :: (x' ++ ch :: y) := rfl
      rw [e1]
      show (startsWith L (a :: (x' ++ ch :: y)) || containsStr L (x' ++ ch :: y))
        = (containsStr L (a :: x') || containsStr L y)
      have e2 : a :: (x' ++ ch :: y) = (a :: x') ++ ch :: y := rfl
      rw [e2, startsWith_append_sep hch (a :: x') y, ih]
      show (startsWith L (a :: x') || (containsStr L x' || containsStr L y))
        = ((startsWith L (a :: x') || containsStr L x') || containsStr L y)
      cases startsWith L (a :: x') <;> cases containsStr L x' <;> cases containsStr L y <;> rfl

theorem replaceFirst_of_not_contains {pat : Str} (rep : Str) {s : Str}
    (h : containsStr pat s = false) : replaceFirst pat rep s = s := by
  induction s with
  | nil => rfl
  | cons c t ih =>
      have h' : (startsWith pat (c :: t) || containsStr pat t) = false := h
      rcases Bool.or_eq_false_iff.mp h' with ⟨h1, h2⟩
      simp [replaceFirst, h1, ih h2]

theorem replaceFirst_append_left {c0 : Char} (p rep : Str) {a : Str} (s : Str)
    (ha : c0 ∉ a) :
    replaceFirst (c0 :: p) rep (a ++ s) = a ++ replaceFirst (c0 :: p) rep s := by
  induction a with
  | nil => rfl
  | cons x a' ih =>
      have hx : ¬ c0 = x := fun h => ha (by simp [h])
      have ih' := ih (fun h => ha (List.mem_cons_of_mem _ h))
      simp [replaceFirst, startsWith, hx, ih']

theorem replaceFirst_of_startsWith {c0 : Char} {p : Str} (rep : Str) {s : Str}
    (h : startsWith (c0 :: p) s = true) :
    replaceFirst (c0 :: p) rep s = rep ++ s.drop (p.length + 1) := by
  cases s with
  | nil => simp [startsWith] at h
  | cons c t => simp [replaceFirst, h]

theorem lit_dsd : lit "/d/" = ['/', 'd', '/'] := rfl

theorem dMatchAt_none_of_head {s : Str} (h : s.head? ≠ some '/') : dMatchAt s = none := by
  cases s with
  | nil => rfl
  | cons c t =>
      have hc : ¬ ('/' : Char) = c := fun he => h (by simp [← he])
      simp [dMatchAt, lit_dsd, startsWith, hc]

theorem matchDSlash_cons_none_iff (c : Char) (s : Str) :
    matchDSlash (c :: s) = none ↔ (dMatchAt (c :: s) = none ∧ matchDSlash s = none) := by
  cases h : dMatchAt (c :: s) <;> simp [matchDSlash, h]

theorem matchDSlash_none_iff (s : Str) :
    matchDSlash s = none ↔ ∀ t, t <:+ s → dMatchAt t = none := by
  induction s with
  | nil =>
      constructor
      · intro _ t ht
        rw [List.suffix_nil.mp ht]
        rfl
      · intro _
        rfl
  | cons c s ih =>
      rw [matchDSlash_cons_none_iff, ih]
      constructor
      · rintro ⟨h1, h2⟩ t ht
        rcases List.suffix_cons_iff.mp ht with rfl | ht'
        · exact h1
        · exact h2 t ht'
      · intro h
        exact ⟨h _ (List.suffix_refl _), fun t ht => h t (ht.trans (List.suffix_cons c s))⟩

theorem takeWhile_append_ne_nil {f : Char → Bool} {x : Str} (e : Str)
    (h : x.takeWhile f ≠ []) : (x ++ e).takeWhile f ≠ [] := by
  cases x with
  | nil => simp at h
  | cons a xs =>
      by_cases ha : f a = true
      · simp [List.takeWhile_cons, ha]
      · simp [List.takeWhile_cons, ha] at h

theorem dMatchAt_extend {t r : Str} (e : Str) (h : dMatchAt t = some r) :
    ∃ r2, dMatchAt (t ++ e) = some r2 := by
  by_cases hs : startsWith (lit "/d/") t = true
  · have hpre : lit "/d/" <+: t := (startsWith_prefix_iff _ _).mp hs
    have hs2 : startsWith (lit "/d/") (t ++ e) = true :=
      (startsWith_prefix_iff _ _).mpr (hpre.trans (List.prefix_append t e))
    have hlen : 3 ≤ t.length := by simpa [lit_dsd] using hpre.length_le
    have hdrop : (t ++ e).drop 3 = t.drop 3 ++ e := List.drop_append_of_le_length hlen
    have hrun : (t.drop 3).takeWhile isIdChar ≠ [] := by
      intro hemp
      rw [dMatchAt, if_pos hs, if_pos (by simp [hemp, List.isEmpty_iff])] at h
      exact Option.noConfusion h
    have hrun2 : ((t ++ e).drop 3).takeWhile isIdChar ≠ [] := by
      rw [hdrop]
      exact takeWhile_append_ne_nil e hrun
    refine ⟨((t ++ e).drop 3).takeWhile isIdChar, ?_⟩
    rw [dMatchAt, if_pos hs2, if_neg (by simpa [List.isEmpty_iff] using hrun2)]
  · rw [dMatchAt, if_neg hs] at h
    exact Option.noConfusion h

theorem matchDSlash_none_of_no_slash {s : Str} (h : ('/' : Char) ∉ s) :
    matchDSlash s = none := by
  rw [matchDSlash_none_iff]
  intro t ht
  apply dMatchAt_none_of_head
  cases t with
  | nil => simp
  | cons c ts =>
      have hc : c ∈ s := ht.subset (by simp)
      intro hh
      rw [List.head?_cons] at hh
      have hcs : c = '/' := Option.some.inj hh
      exact h (hcs ▸ hc)

theorem matchDSlash_infix_none {s t : Str} (hs : matchDSlash s = none) (h : t <:+: s) :
    matchDSlash t = none := by
  rw [matchDSlash_none_iff] at hs ⊢
  intro t' ht'
  rcases h with ⟨a, b, rfl⟩
  rcases ht' with ⟨w, rfl⟩
  cases hd : dMatchAt t' with
  | none => rfl
  | some r =>
      rcases dMatchAt_extend b hd with ⟨r2, hr2⟩
      have hsuff : t' ++ b <:+ a ++ (w ++ t') ++ b := ⟨a ++ w, by simp⟩
      rw [hs (t' ++ b) hsuff] at hr2
      exact Option.noConfusion hr2

theorem suffix_append_split {t x y : Str} (h : t <:+ x ++ y) :
    t <:+ y ∨ ∃ x', x' <:+ x ∧ x' ≠ [] ∧ t = x' ++ y := by
  induction x with
  | nil => exact Or.inl (by simpa using h)
  | cons a x' ih =>
      rcases List.suffix_cons_iff.mp (by simpa using h) with h1 | h1
      · exact Or.inr ⟨a :: x', List.suffix_refl _, by simp, by simpa using h1⟩
      · rcases ih h1 with h2 | ⟨x'', hs, hne, rfl⟩
        · exact Or.inl h2
        · exact Or.inr ⟨x'', hs.trans (List.suffix_cons a x'), hne, rfl⟩

/-! Facts about the capture stage and the job handler. -/

theorem renderBrowserPhase_snd_ok (lo po so : Except Unit Unit) (hn hb : Bool)
    (fn f : Str) (h : (renderBrowserPhase lo po so hn hb fn).2 = Except.ok f) :
    f = fn := by
  cases lo with
  | error e => simp [renderBrowserPhase] at h
  | ok _ =>
      cases po with
      | error e => simp [renderBrowserPhase] at h
      | ok _ =>
          cases so with
          | error e => simp [renderBrowserPhase] at h
          | ok _ =>
              simp [renderBrowserPhase] at h
              exact h.symm

theorem renderToFile_ok_name (hash : Str → Str) (outputDir apiBase : Str)
    (width height : Nat) (payload : JobPayload) (logoPath dateStr nowStr : Str)
    (st : ResSt) (o : RenderOracles) (f : Str)
    (h : (renderToFile hash outputDir apiBase width height payload logoPath dateStr
            nowStr st o).2.1 = Except.ok f) :
    f = payload.id ++ lit ".png" := by
  have h' := h
  simp only [renderToFile] at h'
  exact renderBrowserPhase_snd_ok o.launchO o.newPageO o.screenshotO _ _
    (payload.id ++ lit ".png") f h'

/-! The claim theorems. -/

/-- C1 (code_bug evidence): the template compositor does not escape the
headline: composed with the headline `</div><script>alert(1)</script>`, the
document contains a literal `<script>` tag — the headline value introduces a
new markup element instead of appearing only as text content of the headline
band (worker.js line 88 interpolates `${headline ?? ''}` verbatim). -/
theorem headline_not_escaped :
    containsStr (lit "<script>")
      (templateHTML 1080 1080 (lit "</div><script>alert(1)</script>") [] [] []
        false 84 12 []) = true := by
  apply containsStr_of_infix
  have h1 : lit "<script>" <:+: lit "</div><script>alert(1)</script>" :=
    (containsStr_infix_iff _ _).mp (by decide)
  have h2 : lit "</div><script>alert(1)</script>" <:+:
      templateHTML 1080 1080 (lit "</div><script>alert(1)</script>") [] [] []
        false 84 12 [] := by
    unfold templateHTML
    exact ⟨_, _, rfl⟩
  exact h1.trans h2

/-- C2 counterexample: when the initial `PROCESSING` report raises, the worker
does **not** proceed to run the render: `renderToFile` is never invoked and
the handler goes straight to the `ERROR` report. -/
theorem processing_failure_counterexample :
    (handleRenderJob (.error ()) (.ok (lit "j1.png")) (.ok ())).renderInvoked = false
    ∧ (handleRenderJob (.error ()) (.ok (lit "j1.png")) (.ok ())).puts
        = [processingBody, errorBody] :=
  ⟨rfl, rfl⟩

/-- C2 amended: if the initial `PROCESSING` report to the Job Store raises,
the handler's shared try block aborts the job: resolution, composition and
capture never run, and the worker attempts to persist `ERROR` instead
(worker.js lines 419-443: the `PROCESSING` fetch sits in the same try as the
render). -/
theorem handler_abandons_job_on_processing_failure (renderO : Except Unit Str)
    (doneO : Except Unit Unit) :
    handleRenderJob (.error ()) renderO doneO
      = { puts := [processingBody, errorBody], renderInvoked := false } :=
  rfl

/-- C3 counterexample: a run whose rendering surface starts successfully
(`launched` is in the trace) but whose snapshot capture raises ends without
`closed` in the trace: the browser is never released on that exit path
(worker.js lines 323-362 have no try/finally around `browser.close()`). -/
theorem browser_leak_counterexample :
    ((renderBrowserPhase (.ok ()) (.ok ()) (.error ()) true true (lit "j1.png")).1.contains
        BrowserEvent.launched = true)
    ∧ ((renderBrowserPhase (.ok ()) (.ok ()) (.error ()) true true (lit "j1.png")).1.contains
        BrowserEvent.closed = false) :=
  ⟨rfl, rfl⟩

/-- C3 amended: the browser is closed exactly on the runs where the launch,
the page opening and the snapshot capture all succeed; an exception from
`newPage` or `screenshot` propagates with the browser left open (document
loading and the asset-load waits, by contrast, sit in their own try/catch and
cannot abort the run). -/
theorem browser_closed_iff_capture_succeeds (launchO newPageO screenshotO : Except Unit Unit)
    (hasNews hasBg : Bool) (fileName : Str) :
    ((renderBrowserPhase launchO newPageO screenshotO hasNews hasBg fileName).1.contains
        BrowserEvent.closed)
      = (launchO.isOk && newPageO.isOk && screenshotO.isOk) := by
  cases launchO <;> cases newPageO <;> cases screenshotO <;>
    cases hasNews <;> cases hasBg <;> rfl

/-- C4 counterexample: the Job Store's update-by-id moves a `DONE` job back to
`PENDING`: `PUT /jobs/:id` applies any truthy requested status with no guard,
so status transitions are not monotonic. -/
theorem status_not_monotonic_counterexample :
    (putJobsId (lit "http://localhost:4000/output")
        { freshJob (lit "j1") (lit "h") [] [] 0 with status := JVal.str (lit "DONE") }
        [(lit "status", JVal.str (lit "PENDING"))]).status = JVal.str (lit "PENDING")
    ∧ JVal.str (lit "PENDING") ≠ JVal.str (lit "DONE") := by
  exact ⟨rfl, by decide⟩

/-- C4 amended: `PUT /jobs/:id` writes whatever non-empty status the caller
sends, regardless of the job's current status — in particular a job in `DONE`
or `ERROR` can be moved to any other status by a later update; nothing in the
Job Store enforces the monotone `PENDING -> PROCESSING -> {DONE, ERROR}`
order. -/
theorem putJobsId_status_unguarded (publicBase : Str) (j : Job) (s : Str)
    (h : s ≠ []) :
    (putJobsId publicBase j [(lit "status", JVal.str s)]).status = JVal.str s := by
  have hcond : ¬ (lit "status" = lit "outputFileName") := by decide
  unfold putJobsId
  simp [bodyGet, JVal.truthy, h, hcond]

/-- Witness for the C4 amended theorem at a concrete input: a `DONE` job is
moved back to `PROCESSING`. -/
theorem putJobsId_status_unguarded_witness :
    (putJobsId (lit "b")
        { freshJob (lit "j1") (lit "h") [] [] 0 with status := JVal.str (lit "DONE") }
        [(lit "status", JVal.str (lit "PROCESSING"))]).status
      = JVal.str (lit "PROCESSING") :=
  putJobsId_status_unguarded (lit "b")
    { freshJob (lit "j1") (lit "h") [] [] 0 with status := JVal.str (lit "DONE") }
    (lit "PROCESSING") (by decide)

/-- C5 counterexample: after the worker's `ERROR` report on a fresh job, the
job's status is `ERROR` but its `error` field is still unset: the report body
carries no summary and the update interface cannot write one, so no "short,
non-empty error summary" is persisted. -/
theorem error_without_summary_counterexample :
    (putJobsId (lit "b") (freshJob (lit "j1") (lit "h") [] [] 0) errorBody).status
        = JVal.str (lit "ERROR")
    ∧ (putJobsId (lit "b") (freshJob (lit "j1") (lit "h") [] [] 0) errorBody).error
        = none :=
  ⟨rfl, rfl⟩

/-- C5 amended: on a pipeline exception the worker persists terminal `ERROR`,
but with no error summary: the `ERROR` report body is `{status: 'ERROR'}`
alone (worker.js line 438), and `PUT /jobs/:id` leaves the `error` column of
every job untouched whatever the body, so the job's error field keeps its
previous value (unset for a job that was fresh). -/
theorem error_persisted_without_summary (doneO : Except Unit Unit)
    (publicBase : Str) (j : Job) :
    (handleRenderJob (.ok ()) (.error ()) doneO).puts = [processingBody, errorBody]
    ∧ (putJobsId publicBase j errorBody).status = JVal.str (lit "ERROR")
    ∧ (putJobsId publicBase j errorBody).error = j.error :=
  ⟨rfl, rfl, rfl⟩

/-- C10: `PUT /jobs/:id` is frame-respecting: only `status` and `outputUrl`
can change.  For every job and every request body — including bodies that try
to set other keys — the id, headline, image URLs, template name, creation
time and `error` field are unchanged (the `error` field is not writable
through this interface at all), and a body without an `outputFileName` key
leaves `outputUrl` unchanged. -/
theorem putJobsId_frame (publicBase : Str) (j : Job) (body : List (Str × JVal)) :
    (putJobsId publicBase j body).id = j.id
    ∧ (putJobsId publicBase j body).headline = j.headline
    ∧ (putJobsId publicBase j body).backgroundUrl = j.backgroundUrl
    ∧ (putJobsId publicBase j body).newsImageUrl = j.newsImageUrl
    ∧ (putJobsId publicBase j body).templateName = j.templateName
    ∧ (putJobsId publicBase j body).createdAt = j.createdAt
    ∧ (putJobsId publicBase j body).error = j.error
    ∧ (bodyGet body (lit "outputFileName") = none →
        (putJobsId publicBase j body).outputUrl = j.outputUrl) := by
  unfold putJobsId
  cases hs : bodyGet body (lit "status") <;>
    cases ho : bodyGet body (lit "outputFileName") <;>
      simp_all <;> (try split_ifs) <;> simp_all

/-- Witness for C10 at a concrete input: a body that tries to write `error`
and `headline` changes neither, and without `outputFileName` the output URL
is untouched. -/
theorem putJobsId_frame_witness :
    ((putJobsId (lit "b") (freshJob (lit "j1") (lit "h") [] [] 0)
        [(lit "error", JVal.str (lit "boom")), (lit "headline", JVal.str (lit "x")),
         (lit "status", JVal.str (lit "DONE"))]).error = none
      ∧ (putJobsId (lit "b") (freshJob (lit "j1") (lit "h") [] [] 0)
          [(lit "error", JVal.str (lit "boom")), (lit "headline", JVal.str (lit "x")),
           (lit "status", JVal.str (lit "DONE"))]).headline = lit "h"
      ∧ (putJobsId (lit "b") (freshJob (lit "j1") (lit "h") [] [] 0)
          [(lit "error", JVal.str (lit "boom")), (lit "headline", JVal.str (lit "x")),
           (lit "status", JVal.str (lit "DONE"))]).outputUrl = none) := by
  have h := putJobsId_frame (lit "b") (freshJob (lit "j1") (lit "h") [] [] 0)
    [(lit "error", JVal.str (lit "boom")), (lit "headline", JVal.str (lit "x")),
     (lit "status", JVal.str (lit "DONE"))]
  exact ⟨h.2.2.2.2.2.2.1, h.2.1, h.2.2.2.2.2.2.2 (by decide)⟩

/-- C9: on a successful run the render output is named `{jobId}.png`, the
worker's `DONE` report carries exactly that file name, and the Job Store
derives the public `outputUrl` as `{publicBase}/{fileName}`. -/
theorem render_success_output_contract (hash : Str → Str) (outputDir apiBase : Str)
    (width height : Nat) (payload : JobPayload) (logoPath dateStr nowStr : Str)
    (st : ResSt) (o : RenderOracles) (f : Str) (publicBase : Str) (j : Job)
    (h : (renderToFile hash outputDir apiBase width height payload logoPath dateStr
            nowStr st o).2.1 = Except.ok f) :
    f = payload.id ++ lit ".png"
    ∧ (handleRenderJob (.ok ()) (Except.ok f) (.ok ())).puts
        = [processingBody, doneBody f]
    ∧ (putJobsId publicBase j (doneBody f)).status = JVal.str (lit "DONE")
    ∧ (putJobsId publicBase j (doneBody f)).outputUrl
        = some (publicBase ++ lit "/" ++ (payload.id ++ lit ".png")) := by
  have hf : f = payload.id ++ lit ".png" :=
    renderToFile_ok_name hash outputDir apiBase width height payload logoPath dateStr
      nowStr st o f h
  have hne : ((payload.id ++ lit ".png").isEmpty) = false := by
    cases payload.id <;> rfl
  have hcond : ¬ (lit "outputFileName" = lit "status") := by decide
  have hdone : ¬ (lit "DONE" = ([] : Str)) := by decide
  refine ⟨hf, rfl, ?_, ?_⟩ <;> subst hf <;>
    (unfold putJobsId
     simp [bodyGet, doneBody, JVal.truthy, JVal.toStr, hne, hcond, hdone])

/-- Witness for C9 at a concrete all-success run. -/
theorem render_success_output_contract_witness :
    lit "j1" ++ lit ".png" = lit "j1" ++ lit ".png"
    ∧ (handleRenderJob (.ok ()) (Except.ok (lit "j1" ++ lit ".png")) (.ok ())).puts
        = [processingBody, doneBody (lit "j1" ++ lit ".png")]
    ∧ (putJobsId (lit "http://localhost:4000/output")
        (freshJob (lit "j1") (lit "h") [] [] 0)
        (doneBody (lit "j1" ++ lit ".png"))).status = JVal.str (lit "DONE")
    ∧ (putJobsId (lit "http://localhost:4000/output")
        (freshJob (lit "j1") (lit "h") [] [] 0)
        (doneBody (lit "j1" ++ lit ".png"))).outputUrl
        = some (lit "http://localhost:4000/output" ++ lit "/" ++ (lit "j1" ++ lit ".png")) :=
  render_success_output_contract (fun _ => lit "h") (lit "/app/output")
    (lit "http://api:4000") 1080 1080
    { id := lit "j1", headline := lit "head", backgroundUrl := [], newsImageUrl := [] }
    [] [] (lit "0") { files := [], fetches := 0 }
    { res := { driveNews := .notOk, driveBg := .notOk, prefNews := .notOk, prefBg := .notOk },
      launchO := .ok (), newPageO := .ok (), screenshotO := .ok () }
    (lit "j1" ++ lit ".png") (lit "http://localhost:4000/output")
    (freshJob (lit "j1") (lit "h") [] [] 0) rfl

/-! Degradation of the resolver functions on failing fetches. -/

theorem fetchDrive_fail_id (outputDir apiBase jobId role u nowStr : Str) (st : ResSt)
    (fo : FetchO) (hf : fo.fails = true) (hfiles : st.files = []) :
    (fetchDriveViaApiIfNeeded outputDir apiBase jobId role u nowStr st fo).1 = u
    ∧ (fetchDriveViaApiIfNeeded outputDir apiBase jobId role u nowStr st fo).2.files = [] := by
  unfold fetchDriveViaApiIfNeeded fetchDriveBody
  by_cases hu : u.isEmpty
  · simp [hu, hfiles]
  · cases hp : urlParse u with
    | none => simp [hu, hp, hfiles]
    | some parsed =>
        by_cases hh : containsStr (lit "drive.google.com") parsed.host = true
        · cases fo with
          | ok ct so => simp [FetchO.fails] at hf
          | throws => simp [hu, hp, hh, hasFile, hfiles, bumpFetch]
          | notOk => simp [hu, hp, hh, hasFile, hfiles, bumpFetch]
        · simp [hu, hp, hh, hfiles]

theorem prefetch_fail_id (hash : Str → Str) (outputDir apiBase jobId role u : Str)
    (st : ResSt) (fo : FetchO) (hf : fo.fails = true) (hfiles : st.files = []) :
    (prefetchRemoteImage hash outputDir apiBase jobId role u st fo).1 = u
    ∧ (prefetchRemoteImage hash outputDir apiBase jobId role u st fo).2.files = [] := by
  unfold prefetchRemoteImage prefetchBody
  by_cases hu : u.isEmpty
  · simp [hu, hfiles]
  · by_cases hfile : startsWith (lit "file://") u = true
    · simp [hu, hfile, hfiles]
    · cases hp : urlParse u with
      | none => simp [hu, hfile, hp, hfiles]
      | some parsed =>
          by_cases hs : parsed.scheme = lit "http" ∨ parsed.scheme = lit "https"
          · cases fo with
            | ok ct so => simp [FetchO.fails] at hf
            | throws => simp [hu, hfile, hp, hs, hasFile, hfiles, bumpFetch]
            | notOk => simp [hu, hfile, hp, hs, hasFile, hfiles, bumpFetch]
          · simp [hu, hfile, hp, hs, hfiles]

/-- C8: resolution never raises and degrades to the input URL.  Both resolver
functions are the total catch of their throwing bodies (`fetchDriveBody`,
`prefetchBody`: a malformed URL, a rejected fetch or a stream error surfaces
as `.error` there and is caught), so for every URL — malformed ones included —
and every failing fetch outcome, with no matching cache file on disk, each
returns its input unchanged, and the whole resolution section of
`renderToFile` returns both input URLs unchanged. -/
theorem resolution_never_raises_degrades (hash : Str → Str)
    (outputDir apiBase jobId role u nowStr news0 bg0 : Str) (st : ResSt)
    (driveO prefO : FetchO) (o : ResolveOracles)
    (hd : driveO.fails = true) (hp : prefO.fails = true)
    (h1 : o.driveNews.fails = true) (h2 : o.driveBg.fails = true)
    (h3 : o.prefNews.fails = true) (h4 : o.prefBg.fails = true)
    (hfiles : st.files = []) :
    (fetchDriveViaApiIfNeeded outputDir apiBase jobId role u nowStr st driveO).1 = u
    ∧ (prefetchRemoteImage hash outputDir apiBase jobId role u st prefO).1 = u
    ∧ (resolveAssets hash outputDir apiBase jobId news0 bg0 nowStr st o).1 = (news0, bg0) := by
  refine ⟨(fetchDrive_fail_id outputDir apiBase jobId role u nowStr st driveO hd hfiles).1,
    (prefetch_fail_id hash outputDir apiBase jobId role u st prefO hp hfiles).1, ?_⟩
  have step1 : ∀ (role' v : Str) (fo : FetchO) (s : ResSt), fo.fails = true →
      s.files = [] →
      ((if !v.isEmpty && containsStr (lit "drive.google.com") v then
          fetchDriveViaApiIfNeeded outputDir apiBase jobId role' v nowStr s fo
        else (v, s)).1 = v
      ∧ (if !v.isEmpty && containsStr (lit "drive.google.com") v then
          fetchDriveViaApiIfNeeded outputDir apiBase jobId role' v nowStr s fo
        else (v, s)).2.files = []) := by
    intro role' v fo s hf hs
    by_cases hc : (!v.isEmpty && containsStr (lit "drive.google.com") v) = true
    · simp only [hc, if_true]
      exact fetchDrive_fail_id outputDir apiBase jobId role' v nowStr s fo hf hs
    · simp only [Bool.not_eq_true] at hc
      simp only [hc, Bool.false_eq_true, if_false]
      exact ⟨trivial, hs⟩
  have step2 : ∀ (role' v : Str) (fo : FetchO) (s : ResSt), fo.fails = true →
      s.files = [] →
      ((if !v.isEmpty then
          prefetchRemoteImage hash outputDir apiBase jobId role' v s fo
        else (v, s)).1 = v
      ∧ (if !v.isEmpty then
          prefetchRemoteImage hash outputDir apiBase jobId role' v s fo
        else (v, s)).2.files = []) := by
    intro role' v fo s hf hs
    by_cases hc : (!v.isEmpty) = true
    · simp only [hc, if_true]
      exact prefetch_fail_id hash outputDir apiBase jobId role' v s fo hf hs
    · simp only [Bool.not_eq_true] at hc
      simp only [hc, Bool.false_eq_true, if_false]
      exact ⟨trivial, hs⟩
  simp only [resolveAssets]
  have e1 := step1 (lit "news") news0 o.driveNews st h1 hfiles
  rw [e1.1]
  have e2 := step1 (lit "bg") bg0 o.driveBg _ h2 e1.2
  rw [e2.1]
  have e3 := step2 (lit "news") news0 o.prefNews _ h3 e2.2
  rw [e3.1]
  have e4 := step2 (lit "bg") bg0 o.prefBg _ h4 e3.2
  rw [e4.1]

/-- Witness for C8 at a concrete input: a drive share URL and failing fetches
leave the URL untouched through both resolvers and through the resolution
section. -/
theorem resolution_never_raises_degrades_witness :
    (fetchDriveViaApiIfNeeded (lit "/app/output") (lit "http://api:4000") (lit "j1")
        (lit "news") (lit "https://drive.google.com/file/d/abc/view") (lit "0")
        { files := [], fetches := 0 } FetchO.throws).1
      = lit "https://drive.google.com/file/d/abc/view"
    ∧ (prefetchRemoteImage (fun _ => lit "aaaa") (lit "/app/output") (lit "http://api:4000")
        (lit "j1") (lit "news") (lit "https://drive.google.com/file/d/abc/view")
        { files := [], fetches := 0 } FetchO.notOk).1
      = lit "https://drive.google.com/file/d/abc/view"
    ∧ (resolveAssets (fun _ => lit "aaaa") (lit "/app/output") (lit "http://api:4000")
        (lit "j1") (lit "https://drive.google.com/file/d/abc/view") (lit "not a url")
        (lit "0") { files := [], fetches := 0 }
        { driveNews := FetchO.throws, driveBg := FetchO.throws,
          prefNews := FetchO.notOk, prefBg := FetchO.notOk }).1
      = (lit "https://drive.google.com/file/d/abc/view", lit "not a url") :=
  resolution_never_raises_degrades (fun _ => lit "aaaa") (lit "/app/output")
    (lit "http://api:4000") (lit "j1") (lit "news")
    (lit "https://drive.google.com/file/d/abc/view") (lit "0")
    (lit "https://drive.google.com/file/d/abc/view") (lit "not a url")
    { files := [], fetches := 0 } FetchO.throws FetchO.notOk
    { driveNews := FetchO.throws, driveBg := FetchO.throws,
      prefNews := FetchO.notOk, prefBg := FetchO.notOk }
    rfl rfl rfl rfl rfl rfl rfl

/-- C6 counterexample: the prefetch cache is **not** keyed purely by source
URL + role.  Resolving the same URL for the same role from a second job
misses the cache (its name starts with the new job id) and fetches again —
two fetches in total where the claim allows one; and even within one job, a
URL whose path carries no extension is re-fetched, because the existence
check uses the extensionless name while the file was written under the
content-type-derived extension. -/
theorem prefetch_cache_not_url_keyed_counterexample :
    (prefetchRemoteImage (fun _ => lit "aaaa") (lit "/app/output") (lit "http://api:4000")
        (lit "j2") (lit "news") (lit "http://img.example.com/pic.png")
        (prefetchRemoteImage (fun _ => lit "aaaa") (lit "/app/output") (lit "http://api:4000")
          (lit "j1") (lit "news") (lit "http://img.example.com/pic.png")
          { files := [], fetches := 0 } (FetchO.ok (lit "image/png") true)).2
        (FetchO.ok (lit "image/png") true)).2.fetches = 2
    ∧ (prefetchRemoteImage (fun _ => lit "aaaa") (lit "/app/output") (lit "http://api:4000")
        (lit "j1") (lit "news") (lit "http://img.example.com/pic")
        (prefetchRemoteImage (fun _ => lit "aaaa") (lit "/app/output") (lit "http://api:4000")
          (lit "j1") (lit "news") (lit "http://img.example.com/pic")
          { files := [], fetches := 0 } (FetchO.ok (lit "image/png") true)).2
        (FetchO.ok (lit "image/png") true)).2.fetches = 2 :=
  ⟨rfl, rfl⟩

/-- C6 amended: the cache file is named `{jobId}-{role}-{hash(url)}{ext}` —
keyed by the job id and role as well as the URL hash — so re-resolving a URL
performs no second fetch only within the same job, for the same role, and
when the URL path carries an extension: there the second resolution finds the
cache file named by the stable hash of the URL and returns the cached
reference with the state unchanged.  A later job, or an extensionless URL,
fetches again (see the counterexample). -/
theorem prefetch_cache_hit_same_job (hash : Str → Str)
    (outputDir apiBase jobId role u : Str) (st : ResSt) (ct : Str) (fo2 : FetchO)
    (p : UrlParts) (hparse : urlParse u = some p)
    (hfile : startsWith (lit "file://") u = false)
    (hscheme : p.scheme = lit "http" ∨ p.scheme = lit "https")
    (hext : (extname p.pathname).isEmpty = false)
    (hmiss : hasFile st
        (jobId ++ lit "-" ++ role ++ lit "-" ++ hash u ++ extname p.pathname) = false) :
    (prefetchRemoteImage hash outputDir apiBase jobId role u st (FetchO.ok ct true)).2.fetches
        = st.fetches + 1
    ∧ prefetchRemoteImage hash outputDir apiBase jobId role u
        (prefetchRemoteImage hash outputDir apiBase jobId role u st (FetchO.ok ct true)).2 fo2
      = (apiOutputRef apiBase (basenamePart (outputDir ++ lit "/" ++
            (jobId ++ lit "-" ++ role ++ lit "-" ++ hash u ++ extname p.pathname))),
         (prefetchRemoteImage hash outputDir apiBase jobId role u st (FetchO.ok ct true)).2) := by
  have hu : u.isEmpty = false := by
    cases u with
    | nil => simp [urlParse, parsePre, breakOn] at hparse
    | cons a t => rfl
  have hmiss' : hasFile st
      (jobId ++ (lit "-" ++ (role ++ (lit "-" ++ (hash u ++ extname p.pathname))))) = false := by
    simpa [List.append_assoc] using hmiss
  have hfirst : prefetchRemoteImage hash outputDir apiBase jobId role u st (FetchO.ok ct true)
      = (apiOutputRef apiBase (basenamePart (outputDir ++ lit "/" ++
            (jobId ++ lit "-" ++ role ++ lit "-" ++ hash u ++ extname p.pathname))),
         addFile (bumpFetch st)
            (jobId ++ lit "-" ++ role ++ lit "-" ++ hash u ++ extname p.pathname)) := by
    unfold prefetchRemoteImage prefetchBody
    simp [hu, hfile, hparse, hscheme, hext, hmiss']
  refine ⟨by rw [hfirst]; rfl, ?_⟩
  rw [hfirst]
  have hhit : hasFile
      (addFile (bumpFetch st)
        (jobId ++ (lit "-" ++ (role ++ (lit "-" ++ (hash u ++ extname p.pathname))))))
      (jobId ++ (lit "-" ++ (role ++ (lit "-" ++ (hash u ++ extname p.pathname))))) = true := by
    simp [hasFile, addFile]
  unfold prefetchRemoteImage prefetchBody
  simp [hu, hfile, hparse, hscheme, hhit]

/-- Witness for the C6 amended theorem at a concrete input: same job, same
role, URL with a `.png` extension — the second resolution is a cache hit. -/
theorem prefetch_cache_hit_same_job_witness :
    (prefetchRemoteImage (fun _ => lit "aaaa") (lit "/app/output") (lit "http://api:4000")
        (lit "j1") (lit "news") (lit "http://img.example.com/pic.png")
        { files := [], fetches := 0 } (FetchO.ok (lit "image/png") true)).2.fetches
        = ({ files := [], fetches := 0 } : ResSt).fetches + 1
    ∧ prefetchRemoteImage (fun _ => lit "aaaa") (lit "/app/output") (lit "http://api:4000")
        (lit "j1") (lit "news") (lit "http://img.example.com/pic.png")
        (prefetchRemoteImage (fun _ => lit "aaaa") (lit "/app/output") (lit "http://api:4000")
          (lit "j1") (lit "news") (lit "http://img.example.com/pic.png")
          { files := [], fetches := 0 } (FetchO.ok (lit "image/png") true)).2
        (FetchO.ok (lit "image/png") true)
      = (apiOutputRef (lit "http://api:4000") (basenamePart (lit "/app/output" ++ lit "/" ++
            (lit "j1" ++ lit "-" ++ lit "news" ++ lit "-" ++
              (fun (_ : Str) => lit "aaaa") (lit "http://img.example.com/pic.png") ++
              extname ({ scheme := lit "http", host := lit "img.example.com", port := [],
                         pathname := lit "/pic.png", query := [] } : UrlParts).pathname))),
         (prefetchRemoteImage (fun _ => lit "aaaa") (lit "/app/output") (lit "http://api:4000")
          (lit "j1") (lit "news") (lit "http://img.example.com/pic.png")
          { files := [], fetches := 0 } (FetchO.ok (lit "image/png") true)).2) :=
  prefetch_cache_hit_same_job (fun _ => lit "aaaa") (lit "/app/output")
    (lit "http://api:4000") (lit "j1") (lit "news")
    (lit "http://img.example.com/pic.png") { files := [], fetches := 0 }
    (lit "image/png") (FetchO.ok (lit "image/png") true)
    { scheme := lit "http", host := lit "img.example.com", port := [],
      pathname := lit "/pic.png", query := [] }
    (by decide) rfl (Or.inl rfl) rfl rfl

/-! Splitting lemmas for the URL-string operations, used to settle the
normalization claim. -/

theorem breakOn_not_mem {ch : Char} {s : Str} (h : ch ∉ s) : breakOn ch s = (s, []) := by
  induction s with
  | nil => rfl
  | cons c t ih =>
      have hc : ¬ c = ch := fun he => h (by simp [he])
      simp [breakOn, hc, ih (fun hm => h (List.mem_cons_of_mem _ hm))]

theorem breakOn_append_sep {ch : Char} {a : Str} (b : Str) (h : ch ∉ a) :
    breakOn ch (a ++ ch :: b) = (a, b) := by
  induction a with
  | nil => simp [breakOn]
  | cons c t ih =>
      have hc : ¬ c = ch := fun he => h (by simp [he])
      simp [breakOn, hc, ih (fun hm => h (List.mem_cons_of_mem _ hm))]

theorem breakOn_append_of_mem {ch : Char} {a : Str} (b : Str) (h : ch ∈ a) :
    breakOn ch (a ++ b) = ((breakOn ch a).1, (breakOn ch a).2 ++ b) := by
  induction a with
  | nil => cases h
  | cons c t ih =>
      by_cases hc : c = ch
      · simp [breakOn, hc]
      · have hm : ch ∈ t := by
          rcases List.mem_cons.mp h with h' | h'
          · exact absurd h'.symm hc
          · exact h'
        simp [breakOn, hc, ih hm]

theorem breakOn_snd_suffix (ch : Char) (s : Str) : (breakOn ch s).2 <:+ s := by
  induction s with
  | nil => simp [breakOn]
  | cons c t ih =>
      by_cases hc : c = ch
      · simp [breakOn, hc, List.suffix_cons]
      · simp only [breakOn, hc, if_false]
        exact ih.trans (List.suffix_cons c t)

theorem splitOnCh_ne_nil (ch : Char) (s : Str) : splitOnCh ch s ≠ [] := by
  cases s with
  | nil => simp [splitOnCh]
  | cons c t =>
      cases h : splitOnCh ch t with
      | nil => simp [splitOnCh, h]
      | cons x r => by_cases hc : c = ch <;> simp [splitOnCh, h, hc]

theorem splitOnCh_no_sep {ch : Char} {s : Str} (h : ch ∉ s) : splitOnCh ch s = [s] := by
  induction s with
  | nil => rfl
  | cons c t ih =>
      have hc : ¬ c = ch := fun he => h (by simp [he])
      have := ih (fun hm => h (List.mem_cons_of_mem _ hm))
      simp [splitOnCh, this, hc]

theorem splitOnCh_append_sep {ch : Char} {a : Str} (b : Str) (h : ch ∉ a) :
    splitOnCh ch (a ++ ch :: b) = a :: splitOnCh ch b := by
  induction a with
  | nil =>
      cases hb : splitOnCh ch b with
      | nil => exact absurd hb (splitOnCh_ne_nil ch b)
      | cons x r => simp [splitOnCh, hb]
  | cons c t ih =>
      have hc : ¬ c = ch := fun he => h (by simp [he])
      have ih' := ih (fun hm => h (List.mem_cons_of_mem _ hm))
      cases hb : splitOnCh ch (t ++ ch :: b) with
      | nil => exact absurd hb (splitOnCh_ne_nil ch _)
      | cons x r =>
          rw [hb] at ih'
          rcases List.cons.inj ih' with ⟨rfl, rfl⟩
          simp [splitOnCh, hb, hc]

theorem splitOnCh_append_pre {ch : Char} {x : Str} (s : Str) (hx : ch ∉ x)
    {h : Str} {r : List Str} (hs : splitOnCh ch s = h :: r) :
    splitOnCh ch (x ++ s) = (x ++ h) :: r := by
  induction x with
  | nil => simpa using hs
  | cons c t ih =>
      have hc : ¬ c = ch := fun he => hx (by simp [he])
      have ih' := ih (fun hm => hx (List.mem_cons_of_mem _ hm))
      simp [splitOnCh, ih', hc]

theorem splitOnCh_pieces_no_sep {ch : Char} {s : Str} {piece : Str}
    (h : piece ∈ splitOnCh ch s) : ch ∉ piece := by
  induction s generalizing piece with
  | nil =>
      simp [splitOnCh] at h
      simp [h]
  | cons c t ih =>
      cases hs : splitOnCh ch t with
      | nil => exact absurd hs (splitOnCh_ne_nil ch t)
      | cons x r =>
          by_cases hc : c = ch
          · simp only [splitOnCh, hs] at h
            rw [if_pos hc] at h
            rcases List.mem_cons.mp h with rfl | h'
            · simp
            · exact ih (hs ▸ h')
          · simp only [splitOnCh, hs] at h
            rw [if_neg hc] at h
            rcases List.mem_cons.mp h with rfl | h'
            · intro hm
              rcases List.mem_cons.mp hm with rfl | hm'
              · exact hc rfl
              · exact ih (hs ▸ List.mem_cons_self x r) hm'
            · exact ih (hs ▸ List.mem_cons_of_mem x h')

theorem splitOnCh_head_prefix {ch : Char} {s h : Str} {r : List Str}
    (hs : splitOnCh ch s = h :: r) : h <+: s := by
  induction s generalizing h r with
  | nil =>
      simp [splitOnCh] at hs
      simp [hs.1]
  | cons c t ih =>
      cases ht : splitOnCh ch t with
      | nil => exact absurd ht (splitOnCh_ne_nil ch t)
      | cons x r' =>
          by_cases hc : c = ch
          · simp only [splitOnCh, ht] at hs
            rw [if_pos hc] at hs
            rcases List.cons.inj hs with ⟨rfl, _⟩
            simp
          · simp only [splitOnCh, ht] at hs
            rw [if_neg hc] at hs
            rcases List.cons.inj hs with ⟨rfl, _⟩
            exact List.cons_prefix_cons.mpr ⟨rfl, ih ht⟩

theorem splitOnCh_pieces_infix {ch : Char} {s piece : Str}
    (h : piece ∈ splitOnCh ch s) : piece <:+: s := by
  induction s generalizing piece with
  | nil =>
      simp [splitOnCh] at h
      simp [h]
  | cons c t ih =>
      cases ht : splitOnCh ch t with
      | nil => exact absurd ht (splitOnCh_ne_nil ch t)
      | cons x r =>
          by_cases hc : c = ch
          · simp only [splitOnCh, ht] at h
            rw [if_pos hc] at h
            rcases List.mem_cons.mp h with rfl | h'
            · exact List.nil_infix
            · exact (ih (ht ▸ h')).trans (List.infix_cons (List.infix_refl t))
          · simp only [splitOnCh, ht] at h
            rw [if_neg hc] at h
            rcases List.mem_cons.mp h with rfl | h'
            · have hx : x <+: t := splitOnCh_head_prefix ht
              exact (List.cons_prefix_cons.mpr ⟨rfl, hx⟩).isInfix
            · have hpt : piece ∈ splitOnCh ch t := ht ▸ List.mem_cons_of_mem x h'
              exact (ih hpt).trans (List.infix_cons (List.infix_refl t))

theorem percentDecode_clean : ∀ {s : Str}, ('%' : Char) ∉ s → ('+' : Char) ∉ s →
    percentDecode s = s := by
  intro s
  induction s with
  | nil => intro _ _; rfl
  | cons c t ih =>
      intro h1 h2
      have hcp : ¬ c = '%' := fun he => h1 (by rw [he]; exact List.mem_cons_self _ _)
      have hcpl : ¬ c = '+' := fun he => h2 (by rw [he]; exact List.mem_cons_self _ _)
      have iht := ih (fun hm => h1 (List.mem_cons_of_mem _ hm))
        (fun hm => h2 (List.mem_cons_of_mem _ hm))
      rw [percentDecode.eq_def]
      split
      · rename_i heq
        exact absurd heq (by simp)
      · rename_i h1' h2' t' heq
        exact absurd (List.cons.inj heq).1 hcp
      · rename_i c' t' hpath
        obtain ⟨hc', ht'⟩ := List.cons.inj hpath
        rw [← hc', ← ht', if_neg hcpl, iht]

theorem percentDecode_nil_iff {s : Str} : percentDecode s = [] ↔ s = [] := by
  constructor
  · intro h
    cases s with
    | nil => rfl
    | cons c t =>
        rw [percentDecode.eq_def] at h
        exfalso
        revert h
        split
        · rename_i heq
          intro _
          exact absurd heq (by simp)
        · split <;> · intro h; simp at h
        · split_ifs <;> · intro h; simp at h
  · intro h; rw [h]; rfl

theorem getParam_value_spec {q name v : Str} (h : getParamRaw q name = some v) :
    ('&' : Char) ∉ v ∧ v <:+: q := by
  unfold getParamRaw at h
  cases hf : (splitOnCh '&' q).filter (fun p => (paramSplit p).1 = name) with
  | nil => rw [hf] at h; exact Option.noConfusion h
  | cons piece rest =>
      rw [hf] at h
      have hv : v = (paramSplit piece).2 := (Option.some.inj h).symm
      have hmem : piece ∈ splitOnCh '&' q :=
        List.mem_of_mem_filter (hf ▸ List.mem_cons_self piece rest)
      have hnos : ('&' : Char) ∉ piece := splitOnCh_pieces_no_sep hmem
      have hinf : piece <:+: q := splitOnCh_pieces_infix hmem
      have hsuf : (paramSplit piece).2 <:+ piece := breakOn_snd_suffix '=' piece
      subst hv
      exact ⟨fun hm => hnos (hsuf.subset hm), hsuf.isInfix.trans hinf⟩

theorem parsePre_query {b q : Str} {p : UrlParts} (h : parsePre b q = some p) :
    p.query = q := by
  simp only [parsePre] at h
  split_ifs at h <;> rw [← Option.some.inj h]

theorem parsePre_query_congr {b q : Str} {p : UrlParts} (q' : Str)
    (h : parsePre b q = some p) :
    parsePre b q' = some { p with query := q' } := by
  simp only [parsePre] at h ⊢
  split_ifs at h ⊢ <;> rw [← Option.some.inj h]

theorem startsWith_append_of_le {p x : Str} (y : Str) (h : p.length ≤ x.length) :
    startsWith p (x ++ y) = startsWith p x := by
  induction p generalizing x with
  | nil => simp [startsWith]
  | cons a p' ih =>
      cases x with
      | nil => simp at h
      | cons b x' =>
          simp only [List.cons_append, startsWith]
          by_cases hab : a = b
          · subst hab
            simp only [if_pos rfl]
            exact ih (by simpa using h)
          · simp [hab]

theorem matchDSlash_some_spec {s r : Str} (h : matchDSlash s = some r) :
    r ≠ [] ∧ ∀ c ∈ r, isIdChar c = true := by
  induction s with
  | nil => exact Option.noConfusion h
  | cons c t ih =>
      rw [matchDSlash] at h
      cases hd : dMatchAt (c :: t) with
      | none => rw [hd] at h; exact ih h
      | some r' =>
          rw [hd] at h
          have hr : r' = r := by simpa using h
          subst hr
          simp only [dMatchAt] at hd
          split_ifs at hd with h1 h2
          have hr2 : ((c :: t).drop 3).takeWhile isIdChar = r' := by simpa using hd
          constructor
          · intro hemp
            rw [hr2, hemp] at h2
            exact h2 rfl
          · intro x hx
            rw [← hr2] at hx
            exact List.mem_takeWhile_imp hx

theorem dMatchAt_append_qhead {l : Str} (y : Str) (h : dMatchAt l = none) :
    dMatchAt (l ++ '?' :: y) = none := by
  cases l with
  | nil =>
      apply dMatchAt_none_of_head
      simp
  | cons a l2 =>
      cases l2 with
      | nil =>
          have hsw : startsWith (lit "/d/") (a :: '?' :: y) = false := by
            by_cases ha : ('/' : Char) = a
            · rw [← ha]
              simp [lit_dsd, startsWith]
            · simp [lit_dsd, startsWith, ha]
          simp [dMatchAt, hsw]
      | cons b l3 =>
          cases l3 with
          | nil =>
              have hsw : startsWith (lit "/d/") (a :: b :: '?' :: y) = false := by
                by_cases ha : ('/' : Char) = a
                · by_cases hb : ('d' : Char) = b
                  · rw [← ha, ← hb]
                    simp [lit_dsd, startsWith]
                  · simp [lit_dsd, startsWith, hb]
                · simp [lit_dsd, startsWith, ha]
              simp [dMatchAt, hsw]
          | cons c rest =>
              have hassoc : (a :: b :: c :: rest) ++ '?' :: y
                  = a :: b :: c :: (rest ++ '?' :: y) := rfl
              have hlen3 : (lit "/d/").length ≤ ([a, b, c] : Str).length := by
                simp [lit_dsd]
              have e1 : startsWith (lit "/d/") (a :: b :: c :: (rest ++ '?' :: y))
                  = startsWith (lit "/d/") [a, b, c] := by
                have : a :: b :: c :: (rest ++ '?' :: y) = [a, b, c] ++ (rest ++ '?' :: y) := rfl
                rw [this, startsWith_append_of_le _ hlen3]
              have e2 : startsWith (lit "/d/") (a :: b :: c :: rest)
                  = startsWith (lit "/d/") [a, b, c] := by
                have : a :: b :: c :: rest = [a, b, c] ++ rest := rfl
                rw [this, startsWith_append_of_le _ hlen3]
              rw [hassoc]
              cases hsw : startsWith (lit "/d/") [a, b, c] with
              | false =>
                  have e1f : startsWith (lit "/d/") (a :: b :: c :: (rest ++ '?' :: y)) = false := by
                    rw [e1, hsw]
                  simp [dMatchAt, e1f]
              | true =>
                  have hswl : startsWith (lit "/d/") (a :: b :: c :: rest) = true := by
                    rw [e2, hsw]
                  simp only [dMatchAt, hswl, if_true] at h
                  split_ifs at h with hrun
                  have hrest : (rest.takeWhile isIdChar) = [] := by
                    simpa [List.isEmpty_iff] using hrun
                  have hext : ((rest ++ '?' :: y).takeWhile isIdChar) = [] := by
                    cases rest with
                    | nil => simp [List.takeWhile_cons, isIdChar]
                    | cons r0 rs =>
                        cases hr0 : isIdChar r0 with
                        | true =>
                            rw [List.takeWhile_cons, if_pos hr0] at hrest
                            exact absurd hrest (by simp)
                        | false =>
                            simp only [List.cons_append, List.takeWhile_cons]
                            rw [if_neg (by rw [hr0]; simp)]
                  have e1t : startsWith (lit "/d/") (a :: b :: c :: (rest ++ '?' :: y)) = true := by
                    rw [e1, hsw]
                  simp [dMatchAt, e1t, hext]

theorem matchDSlash_sep_split {x y : Str} :
    matchDSlash (x ++ '?' :: y) = none ↔ (matchDSlash x = none ∧ matchDSlash y = none) := by
  constructor
  · intro h
    rw [matchDSlash_none_iff] at h
    constructor
    · rw [matchDSlash_none_iff]
      intro t ht
      cases hd : dMatchAt t with
      | none => rfl
      | some r =>
          rcases dMatchAt_extend ('?' :: y) hd with ⟨r2, hr2⟩
          have hsuf : t ++ '?' :: y <:+ x ++ '?' :: y := by
            rcases ht with ⟨w, rfl⟩
            exact ⟨w, by simp⟩
          rw [h _ hsuf] at hr2
          exact Option.noConfusion hr2
    · rw [matchDSlash_none_iff]
      intro t ht
      exact h t ((ht.trans (List.suffix_cons '?' y)).trans (List.suffix_append x ('?' :: y)))
  · rintro ⟨hx, hy⟩
    rw [matchDSlash_none_iff]
    intro t ht
    rcases suffix_append_split ht with hty | ⟨l', hl', hne, rfl⟩
    · rcases List.suffix_cons_iff.mp hty with rfl | hty'
      · exact dMatchAt_none_of_head (by simp)
      · exact (matchDSlash_none_iff y).mp hy t hty'
    · exact dMatchAt_append_qhead y ((matchDSlash_none_iff x).mp hx l' hl')

theorem dMatchAt_none_of_startsWith_false {s : Str}
    (h : startsWith (lit "/d/") s = false) : dMatchAt s = none := by
  unfold dMatchAt
  rw [if_neg (by simp [h])]

theorem matchDSlash_driveDirect {fid : Str}
    (hno : ∀ t, t <:+ fid → dMatchAt t = none) :
    matchDSlash (driveDirect fid) = none := by
  rw [matchDSlash_none_iff]
  intro t ht
  have hd : driveDirect fid = lit "https://drive.google.com/uc?export=view&id=" ++ fid := rfl
  rw [hd] at ht
  rcases suffix_append_split ht with hf | ⟨l', hl', hne, rfl⟩
  · exact hno t hf
  · cases l' with
    | nil => exact absurd rfl hne
    | cons a l2 =>
        cases l2 with
        | nil =>
            rcases hl' with ⟨w, hw⟩
            have ha : a = '=' := by
              have h1 : (w ++ [a]).getLast? = some a := List.getLast?_concat w
              rw [hw] at h1
              have h2 : (lit "https://drive.google.com/uc?export=view&id=").getLast?
                  = some '=' := rfl
              rw [h2] at h1
              exact (Option.some.inj h1).symm
            subst ha
            exact dMatchAt_none_of_head (by simp)
        | cons b l3 =>
            cases l3 with
            | nil =>
                rcases hl' with ⟨w, hw⟩
                have hb : b = '=' := by
                  have h1 : ((w ++ [a]) ++ [b]).getLast? = some b := List.getLast?_concat _
                  rw [show (w ++ [a]) ++ [b] = w ++ [a, b] by simp, hw] at h1
                  have h2 : (lit "https://drive.google.com/uc?export=view&id=").getLast?
                      = some '=' := rfl
                  rw [h2] at h1
                  exact (Option.some.inj h1).symm
                subst hb
                have hsw : startsWith (lit "/d/") (a :: '=' :: fid) = false := by
                  by_cases ha : ('/' : Char) = a
                  · rw [← ha]
                    simp [lit_dsd, startsWith]
                  · simp [lit_dsd, startsWith, ha]
                simp [dMatchAt, hsw]
            | cons c rest =>
                have hlen3 : (lit "/d/").length ≤ ([a, b, c] : Str).length := by
                  simp [lit_dsd]
                have hall : ∀ t' ∈ (lit "https://drive.google.com/uc?export=view&id=").tails,
                    startsWith (lit "/d/") t' = false := by decide
                have e2 : startsWith (lit "/d/") (a :: b :: c :: rest)
                    = startsWith (lit "/d/") [a, b, c] := by
                  have hx : a :: b :: c :: rest = [a, b, c] ++ rest := rfl
                  rw [hx, startsWith_append_of_le _ hlen3]
                have hsw : startsWith (lit "/d/") [a, b, c] = false := by
                  rw [← e2]
                  exact hall _ ((List.mem_tails _ _).mpr hl')
                have e1f : startsWith (lit "/d/") ((a :: b :: c :: rest) ++ fid) = false := by
                  have hx : (a :: b :: c :: rest) ++ fid = [a, b, c] ++ (rest ++ fid) := by simp
                  rw [hx, startsWith_append_of_le _ hlen3, hsw]
                exact dMatchAt_none_of_startsWith_false e1f

theorem urlParse_driveDirect (fid : Str) :
    urlParse (driveDirect fid)
      = some { scheme := lit "https", host := lit "drive.google.com", port := [],
               pathname := lit "/uc", query := lit "export=view&id=" ++ fid } := by
  have hsplit : driveDirect fid
      = lit "https://drive.google.com/uc" ++ '?' :: (lit "export=view&id=" ++ fid) := rfl
  have hq : ('?' : Char) ∉ lit "https://drive.google.com/uc" := by decide
  unfold urlParse
  rw [hsplit, breakOn_append_sep _ hq]
  rfl

theorem getParamRaw_drive_query {fid : Str} (h : ('&' : Char) ∉ fid) :
    getParamRaw (lit "export=view&id=" ++ fid) (lit "id") = some fid := by
  have hsplit : lit "export=view&id=" ++ fid
      = lit "export=view" ++ '&' :: (lit "id=" ++ fid) := rfl
  have hna : ('&' : Char) ∉ lit "export=view" := by decide
  have hnb : ('&' : Char) ∉ lit "id=" ++ fid := by
    intro hm
    rcases List.mem_append.mp hm with hm | hm
    · revert hm
      decide
    · exact h hm
  have hb : paramSplit (lit "id=" ++ fid) = (lit "id", fid) := rfl
  have ha : ¬ ((paramSplit (lit "export=view")).1 = lit "id") := by decide
  unfold getParamRaw
  rw [hsplit, splitOnCh_append_sep _ hna, splitOnCh_no_sep hnb]
  simp [List.filter_cons, ha, hb]

theorem normalize_driveDirect_fixed {fid : Str} (hfid : fid ≠ [])
    (hamp : ('&' : Char) ∉ fid) (hpd : percentDecode fid = fid)
    (hno : ∀ t, t <:+ fid → dMatchAt t = none) :
    normalizeImageUrl (driveDirect fid) = driveDirect fid := by
  have hne : (driveDirect fid).isEmpty = false := rfl
  have hdrive : containsStr (lit "drive.google.com") (driveDirect fid) = true := by
    have : containsStr (lit "drive.google.com")
        (lit "https://drive.google.com/uc?export=view&id=") = true := by decide
    exact contains_append_right fid this
  have hparse := urlParse_driveDirect fid
  have hmd := matchDSlash_driveDirect hno
  have hgp : getParam (lit "export=view&id=" ++ fid) (lit "id") = some fid := by
    unfold getParam
    rw [getParamRaw_drive_query hamp]
    simp [hpd]
  unfold normalizeImageUrl
  rw [hparse]
  simp [hne, hdrive, hmd, hgp, List.isEmpty_iff, hfid]

theorem contains_cons_not_mem {c : Char} {p s : Str} (h : c ∉ s) :
    containsStr (c :: p) s = false := by
  cases hcs : containsStr (c :: p) s
  · rfl
  · have hmem := ((containsStr_infix_iff _ _).mp hcs).subset (List.mem_cons_self c p)
    exact absurd hmem h

theorem contains_qmark {p a b : Str} (ha : ('?' : Char) ∉ a) (hb : ('?' : Char) ∉ b) :
    containsStr ('?' :: p) (a ++ '?' :: b) = startsWith p b := by
  induction a with
  | nil =>
      have h2 : containsStr ('?' :: p) b = false := contains_cons_not_mem hb
      have h1 : startsWith ('?' :: p) ('?' :: b) = startsWith p b := by
        simp [startsWith]
      show (startsWith ('?' :: p) ('?' :: b) || containsStr ('?' :: p) b) = startsWith p b
      rw [h1, h2, Bool.or_false]
  | cons x a' ih =>
      have hx : ¬ ('?' : Char) = x := fun he => ha (by simp [← he])
      have ih' := ih (fun hm => ha (List.mem_cons_of_mem _ hm))
      show (startsWith ('?' :: p) (x :: (a' ++ '?' :: b))
          || containsStr ('?' :: p) (a' ++ '?' :: b)) = startsWith p b
      simp [startsWith, hx, ih']

theorem qmark_decomp {u : Str} (hc : List.count '?' u ≤ 1)
    (hq : containsStr (lit "?") u = true) :
    ∃ a b, u = a ++ '?' :: b ∧ ('?' : Char) ∉ a ∧ ('?' : Char) ∉ b := by
  have hmem : ('?' : Char) ∈ u := by
    have h1 : containsStr ['?'] u = true := hq
    exact (contains_singleton_iff '?' u).mp h1
  rcases exists_first_occ hmem with ⟨a, b, rfl, hna⟩
  refine ⟨a, b, rfl, hna, ?_⟩
  have hcount : List.count '?' b = 0 := by
    rw [List.count_append, List.count_cons_self] at hc
    omega
  exact List.count_eq_zero.mp hcount

theorem getParamRaw_raw1_dl0 (c2 : Str) :
    getParamRaw (lit "raw=1" ++ c2) (lit "id") = getParamRaw (lit "dl=0" ++ c2) (lit "id") := by
  cases hs : splitOnCh '&' c2 with
  | nil => exact absurd hs (splitOnCh_ne_nil _ _)
  | cons h r =>
      have e1 := splitOnCh_append_pre c2 (by decide : ('&' : Char) ∉ lit "raw=1") hs
      have e2 := splitOnCh_append_pre c2 (by decide : ('&' : Char) ∉ lit "dl=0") hs
      have p1 : paramSplit (lit "raw=1" ++ h) = (lit "raw", '1' :: h) := rfl
      have p2 : paramSplit (lit "dl=0" ++ h) = (lit "dl", '0' :: h) := rfl
      have n1 : ¬ ((lit "raw" : Str) = lit "id") := by decide
      have n2 : ¬ ((lit "dl" : Str) = lit "id") := by decide
      unfold getParamRaw
      rw [e1, e2, List.filter_cons, List.filter_cons, p1, p2]
      simp [n1, n2]

theorem getParam_raw1_dl0 (c2 : Str) :
    getParam (lit "raw=1" ++ c2) (lit "id") = getParam (lit "dl=0" ++ c2) (lit "id") := by
  unfold getParam
  rw [getParamRaw_raw1_dl0]

theorem getParamRaw_raw1_dl1 (c2 : Str) :
    getParamRaw (lit "raw=1" ++ c2) (lit "id") = getParamRaw (lit "dl=1" ++ c2) (lit "id") := by
  cases hs : splitOnCh '&' c2 with
  | nil => exact absurd hs (splitOnCh_ne_nil _ _)
  | cons h r =>
      have e1 := splitOnCh_append_pre c2 (by decide : ('&' : Char) ∉ lit "raw=1") hs
      have e2 := splitOnCh_append_pre c2 (by decide : ('&' : Char) ∉ lit "dl=1") hs
      have p1 : paramSplit (lit "raw=1" ++ h) = (lit "raw", '1' :: h) := rfl
      have p2 : paramSplit (lit "dl=1" ++ h) = (lit "dl", '1' :: h) := rfl
      have n1 : ¬ ((lit "raw" : Str) = lit "id") := by decide
      have n2 : ¬ ((lit "dl" : Str) = lit "id") := by decide
      unfold getParamRaw
      rw [e1, e2, List.filter_cons, List.filter_cons, p1, p2]
      simp [n1, n2]

theorem getParam_raw1_dl1 (c2 : Str) :
    getParam (lit "raw=1" ++ c2) (lit "id") = getParam (lit "dl=1" ++ c2) (lit "id") := by
  unfold getParam
  rw [getParamRaw_raw1_dl1]

theorem dropboxNormalize_cases (u : Str) (hc : List.count '?' u ≤ 1)
    (hdrop : containsStr (lit "dropbox.com") u = true) :
    dropboxNormalize u = u
    ∨ (containsStr (lit "?") u = false ∧ dropboxNormalize u = u ++ lit "?raw=1")
    ∨ (∃ a c2, (u = a ++ '?' :: (lit "dl=0" ++ c2) ∨ u = a ++ '?' :: (lit "dl=1" ++ c2))
        ∧ ('?' : Char) ∉ a ∧ ('?' : Char) ∉ c2
        ∧ dropboxNormalize u = a ++ '?' :: (lit "raw=1" ++ c2)) := by
  by_cases hq : containsStr (lit "?") u = true
  · rcases qmark_decomp hc hq with ⟨a, b, rfl, hna, hnb⟩
    have hpat0 : (lit "?dl=0" : Str) = '?' :: lit "dl=0" := rfl
    have hpat1 : (lit "?dl=1" : Str) = '?' :: lit "dl=1" := rfl
    by_cases h0 : startsWith (lit "dl=0") b = true
    · rcases (startsWith_prefix_iff _ _).mp h0 with ⟨c2, rfl⟩
      have hnc2 : ('?' : Char) ∉ c2 :=
        fun hm => hnb (List.mem_append.mpr (Or.inr hm))
      right; right
      refine ⟨a, c2, Or.inl rfl, hna, hnc2, ?_⟩
      unfold dropboxNormalize
      rw [if_pos hdrop, if_pos hq]
      have hsw : startsWith (lit "?dl=0") ('?' :: (lit "dl=0" ++ c2)) = true := by
        rw [hpat0]
        exact (startsWith_prefix_iff _ _).mpr
          (List.cons_prefix_cons.mpr ⟨rfl, List.prefix_append _ _⟩)
      have hr1 : replaceFirst (lit "?dl=0") (lit "?raw=1") (a ++ '?' :: (lit "dl=0" ++ c2))
          = a ++ '?' :: (lit "raw=1" ++ c2) := by
        rw [hpat0, replaceFirst_append_left _ _ _ hna,
          replaceFirst_of_startsWith _ (by rw [← hpat0]; exact hsw)]
        rfl
      rw [hr1]
      have hq2 : containsStr (lit "?dl=1") (a ++ '?' :: (lit "raw=1" ++ c2)) = false := by
        rw [hpat1, contains_qmark hna (by
          intro hm
          rcases List.mem_append.mp hm with hm | hm
          · revert hm; decide
          · exact hnc2 hm)]
        rfl
      rw [replaceFirst_of_not_contains _ hq2]
    · have hq0 : containsStr (lit "?dl=0") (a ++ '?' :: b) = false := by
        rw [hpat0, contains_qmark hna hnb]
        simpa using h0
      by_cases h1 : startsWith (lit "dl=1") b = true
      · rcases (startsWith_prefix_iff _ _).mp h1 with ⟨c2, rfl⟩
        have hnc2 : ('?' : Char) ∉ c2 :=
          fun hm => hnb (List.mem_append.mpr (Or.inr hm))
        right; right
        refine ⟨a, c2, Or.inr rfl, hna, hnc2, ?_⟩
        unfold dropboxNormalize
        rw [if_pos hdrop, if_pos hq, replaceFirst_of_not_contains _ hq0]
        have hsw : startsWith (lit "?dl=1") ('?' :: (lit "dl=1" ++ c2)) = true := by
          rw [hpat1]
          exact (startsWith_prefix_iff _ _).mpr
            (List.cons_prefix_cons.mpr ⟨rfl, List.prefix_append _ _⟩)
        rw [hpat1, replaceFirst_append_left _ _ _ hna,
          replaceFirst_of_startsWith _ (by rw [← hpat1]; exact hsw)]
        rfl
      · have hq1 : containsStr (lit "?dl=1") (a ++ '?' :: b) = false := by
          rw [hpat1, contains_qmark hna hnb]
          simpa using h1
        left
        unfold dropboxNormalize
        rw [if_pos hdrop, if_pos hq, replaceFirst_of_not_contains _ hq0,
          replaceFirst_of_not_contains _ hq1]
  · right; left
    have hq' : containsStr (lit "?") u = false := by simpa using hq
    refine ⟨hq', ?_⟩
    unfold dropboxNormalize
    rw [if_pos hdrop, if_neg (by simp [hq'])]

theorem normalize_fix_qraw (A C : Str) (hqa : ('?' : Char) ∉ A) (hqc : ('?' : Char) ∉ C)
    (hdrop : containsStr (lit "dropbox.com") (A ++ '?' :: (lit "raw=1" ++ C)) = true)
    (hcase : containsStr (lit "drive.google.com") (A ++ '?' :: (lit "raw=1" ++ C)) = false
      ∨ (matchDSlash A = none ∧ matchDSlash C = none
         ∧ (∃ p', parsePre A (lit "raw=1" ++ C) = some p')
         ∧ (getParam (lit "raw=1" ++ C) (lit "id") = none
            ∨ getParam (lit "raw=1" ++ C) (lit "id") = some []))) :
    normalizeImageUrl (A ++ '?' :: (lit "raw=1" ++ C))
      = A ++ '?' :: (lit "raw=1" ++ C) := by
  have hqb : ('?' : Char) ∉ lit "raw=1" ++ C := by
    intro hm
    rcases List.mem_append.mp hm with hm | hm
    · revert hm; decide
    · exact hqc hm
  have hne : (A ++ '?' :: (lit "raw=1" ++ C)).isEmpty = false := by
    cases A <;> rfl
  have hqr : containsStr (lit "?") (A ++ '?' :: (lit "raw=1" ++ C)) = true := by
    exact (contains_singleton_iff '?' _).mpr (by simp)
  have hrep0 : containsStr (lit "?dl=0") (A ++ '?' :: (lit "raw=1" ++ C)) = false := by
    have hpat : (lit "?dl=0" : Str) = '?' :: lit "dl=0" := rfl
    rw [hpat, contains_qmark hqa hqb]
    rfl
  have hrep1 : containsStr (lit "?dl=1") (A ++ '?' :: (lit "raw=1" ++ C)) = false := by
    have hpat : (lit "?dl=1" : Str) = '?' :: lit "dl=1" := rfl
    rw [hpat, contains_qmark hqa hqb]
    rfl
  have hdropArm : dropboxNormalize (A ++ '?' :: (lit "raw=1" ++ C))
      = A ++ '?' :: (lit "raw=1" ++ C) := by
    unfold dropboxNormalize
    rw [if_pos hdrop, if_pos hqr, replaceFirst_of_not_contains _ hrep0,
      replaceFirst_of_not_contains _ hrep1]
  rcases hcase with hnd | ⟨hmA, hmC, ⟨p', hp'⟩, hgp⟩
  · unfold normalizeImageUrl
    rw [if_neg (by simp [hne]), if_neg (by simp [hnd])]
    exact hdropArm
  · have hbr : breakOn '?' (A ++ '?' :: (lit "raw=1" ++ C)) = (A, lit "raw=1" ++ C) :=
      breakOn_append_sep _ hqa
    have hparse_r : urlParse (A ++ '?' :: (lit "raw=1" ++ C)) = some p' := by
      unfold urlParse
      rw [hbr]
      exact hp'
    have hmd_r : matchDSlash (A ++ '?' :: (lit "raw=1" ++ C)) = none := by
      apply matchDSlash_sep_split.mpr
      exact ⟨hmA, (hmC : matchDSlash (lit "raw=1" ++ C) = none)⟩
    have hquery : p'.query = lit "raw=1" ++ C := parsePre_query hp'
    by_cases hdr : containsStr (lit "drive.google.com") (A ++ '?' :: (lit "raw=1" ++ C)) = true
    · unfold normalizeImageUrl
      rw [if_neg (by simp [hne]), if_pos hdr, hparse_r]
      simp only [hmd_r]
      rcases hgp with hgp | hgp
      · rw [hquery, hgp]
        exact hdropArm
      · rw [hquery, hgp]
        simp only [List.isEmpty_nil, if_pos rfl]
        exact hdropArm
    · unfold normalizeImageUrl
      rw [if_neg (by simp [hne]), if_neg hdr]
      exact hdropArm

theorem normalize_fix_dropboxArm (u : Str) (hc : List.count '?' u ≤ 1)
    (hu' : u.isEmpty = false)
    (hctx : containsStr (lit "drive.google.com") u = false
      ∨ (matchDSlash u = none ∧ ∃ p, urlParse u = some p
          ∧ (getParam p.query (lit "id") = none ∨ getParam p.query (lit "id") = some []))) :
    normalizeImageUrl (dropboxNormalize u) = dropboxNormalize u := by
  have fixedpoint_of_self : dropboxNormalize u = u → normalizeImageUrl u = u := by
    intro hEq
    unfold normalizeImageUrl
    rcases hctx with hnd | ⟨hm, p, hp, hg⟩
    · rw [if_neg (by simp [hu']), if_neg (by simp [hnd])]
      exact hEq
    · by_cases hdr : containsStr (lit "drive.google.com") u = true
      · rw [if_neg (by simp [hu']), if_pos hdr, hp]
        simp only [hm]
        rcases hg with hg | hg
        · rw [hg]
          exact hEq
        · rw [hg]
          simp only [List.isEmpty_nil, if_pos rfl]
          exact hEq
      · rw [if_neg (by simp [hu']), if_neg hdr]
        exact hEq
  by_cases hdropC : containsStr (lit "dropbox.com") u = true
  · rcases dropboxNormalize_cases u hc hdropC with hEq | ⟨hnoq, hEq⟩ | ⟨a, c2, hshape, hna, hnc2, hEq⟩
    · rw [hEq]
      exact fixedpoint_of_self hEq
    · -- no `?` in u: the normalized form is u ++ "?raw=1"
      have hqa : ('?' : Char) ∉ u := by
        intro hm
        have h1 : containsStr (lit "?") u = true := (contains_singleton_iff '?' u).mpr hm
        rw [h1] at hnoq
        exact Bool.noConfusion hnoq
      have hconv : u ++ lit "?raw=1" = u ++ '?' :: (lit "raw=1" ++ ([] : Str)) := rfl
      have hdropR : containsStr (lit "dropbox.com") (u ++ '?' :: (lit "raw=1" ++ ([] : Str))) = true := by
        rw [← hconv]
        exact contains_append_right _ hdropC
      have hcaseR : containsStr (lit "drive.google.com") (u ++ '?' :: (lit "raw=1" ++ ([] : Str))) = false
          ∨ (matchDSlash u = none ∧ matchDSlash ([] : Str) = none
             ∧ (∃ p', parsePre u (lit "raw=1" ++ ([] : Str)) = some p')
             ∧ (getParam (lit "raw=1" ++ ([] : Str)) (lit "id") = none
                ∨ getParam (lit "raw=1" ++ ([] : Str)) (lit "id") = some [])) := by
        rcases hctx with hnd | ⟨hm, p, hp, hg⟩
        · left
          rw [contains_append_sep (by decide) (by decide)]
          have h2 : containsStr (lit "drive.google.com") (lit "raw=1" ++ ([] : Str)) = false := by
            decide
          rw [hnd, h2]
          rfl
        · right
          have hb0 : breakOn '?' u = (u, []) := breakOn_not_mem hqa
          have hp0 : parsePre u [] = some p := by
            have := hp
            unfold urlParse at this
            rw [hb0] at this
            exact this
          refine ⟨hm, rfl, ⟨{ p with query := lit "raw=1" ++ ([] : Str) },
            parsePre_query_congr _ hp0⟩, ?_⟩
          left
          decide
      rw [hEq, hconv]
      exact normalize_fix_qraw u [] hqa (by simp) hdropR hcaseR
    · -- u = a ++ '?' :: (dl=0/1 ++ c2); result is a ++ '?' :: (raw=1 ++ c2)
      have hdropR : containsStr (lit "dropbox.com") (a ++ '?' :: (lit "raw=1" ++ c2)) = true := by
        have hsra : containsStr (lit "dropbox.com") (a ++ '?' :: (lit "raw=1" ++ c2))
            = (containsStr (lit "dropbox.com") a || containsStr (lit "dropbox.com") c2) := by
          rw [contains_append_sep (by decide) (by decide)]
          rfl
        rcases hshape with hsh | hsh <;>
          · rw [hsh] at hdropC
            rw [contains_append_sep (by decide) (by decide)] at hdropC
            rw [hsra]
            exact hdropC
      have hcaseR : containsStr (lit "drive.google.com") (a ++ '?' :: (lit "raw=1" ++ c2)) = false
          ∨ (matchDSlash a = none ∧ matchDSlash c2 = none
             ∧ (∃ p', parsePre a (lit "raw=1" ++ c2) = some p')
             ∧ (getParam (lit "raw=1" ++ c2) (lit "id") = none
                ∨ getParam (lit "raw=1" ++ c2) (lit "id") = some [])) := by
        rcases hctx with hnd | ⟨hm, p, hp, hg⟩
        · left
          have hsra : containsStr (lit "drive.google.com") (a ++ '?' :: (lit "raw=1" ++ c2))
              = (containsStr (lit "drive.google.com") a || containsStr (lit "drive.google.com") c2) := by
            rw [contains_append_sep (by decide) (by decide)]
            rfl
          rcases hshape with hsh | hsh <;>
            · rw [hsh] at hnd
              rw [contains_append_sep (by decide) (by decide)] at hnd
              rw [hsra]
              exact hnd
        · right
          rcases hshape with hsh | hsh
          · rw [hsh] at hm hp
            have hsplit := matchDSlash_sep_split.mp hm
            have hb0 : breakOn '?' (a ++ '?' :: (lit "dl=0" ++ c2)) = (a, lit "dl=0" ++ c2) :=
              breakOn_append_sep _ hna
            have hp0 : parsePre a (lit "dl=0" ++ c2) = some p := by
              unfold urlParse at hp
              rw [hb0] at hp
              exact hp
            refine ⟨hsplit.1, (hsplit.2 : matchDSlash c2 = none),
              ⟨{ p with query := lit "raw=1" ++ c2 }, parsePre_query_congr _ hp0⟩, ?_⟩
            have hqv : p.query = lit "dl=0" ++ c2 := parsePre_query hp0
            rw [getParam_raw1_dl0, ← hqv]
            exact hg
          · rw [hsh] at hm hp
            have hsplit := matchDSlash_sep_split.mp hm
            have hb0 : breakOn '?' (a ++ '?' :: (lit "dl=1" ++ c2)) = (a, lit "dl=1" ++ c2) :=
              breakOn_append_sep _ hna
            have hp0 : parsePre a (lit "dl=1" ++ c2) = some p := by
              unfold urlParse at hp
              rw [hb0] at hp
              exact hp
            refine ⟨hsplit.1, (hsplit.2 : matchDSlash c2 = none),
              ⟨{ p with query := lit "raw=1" ++ c2 }, parsePre_query_congr _ hp0⟩, ?_⟩
            have hqv : p.query = lit "dl=1" ++ c2 := parsePre_query hp0
            rw [getParam_raw1_dl1, ← hqv]
            exact hg
      rw [hEq]
      exact normalize_fix_qraw a c2 hna hnc2 hdropR hcaseR
  · have hEq : dropboxNormalize u = u := by
      unfold dropboxNormalize
      rw [if_neg (by simp [hdropC])]
    rw [hEq]
    exact fixedpoint_of_self hEq

theorem normalizeImageUrl_idem (u : Str) (hc : List.count '?' u ≤ 1)
    (hpc : ('%' : Char) ∉ u) (hpl : ('+' : Char) ∉ u) :
    normalizeImageUrl (normalizeImageUrl u) = normalizeImageUrl u := by
  by_cases hu : u.isEmpty = true
  · have h0 : normalizeImageUrl u = u := by
      unfold normalizeImageUrl
      rw [if_pos hu]
    rw [h0]
    exact h0
  · have hu' : u.isEmpty = false := by
      cases hval : u.isEmpty
      · rfl
      · exact absurd hval hu
    by_cases hdrive : containsStr (lit "drive.google.com") u = true
    · cases hp : urlParse u with
      | none =>
          have h0 : normalizeImageUrl u = u := by
            unfold normalizeImageUrl
            rw [if_neg (by simp [hu']), if_pos hdrive, hp]
          rw [h0]
          exact h0
      | some p =>
          cases hm : matchDSlash u with
          | some fid =>
              have h0 : normalizeImageUrl u = driveDirect fid := by
                unfold normalizeImageUrl
                rw [if_neg (by simp [hu']), if_pos hdrive, hp]
                simp only [hm]
              have hspec := matchDSlash_some_spec hm
              have hno : ∀ t, t <:+ fid → dMatchAt t = none := by
                intro t ht
                apply dMatchAt_none_of_head
                cases t with
                | nil => simp
                | cons c0 ts =>
                    have hc0 : isIdChar c0 = true := hspec.2 c0 (ht.subset (by simp))
                    simp only [List.head?_cons]
                    intro hh
                    have hc0' : c0 = '/' := Option.some.inj hh
                    rw [hc0'] at hc0
                    exact absurd hc0 (by decide)
              have hamp : ('&' : Char) ∉ fid := by
                intro hmem
                exact absurd (hspec.2 '&' hmem) (by decide)
              have hpd : percentDecode fid = fid :=
                percentDecode_clean
                  (fun hmem => absurd (hspec.2 '%' hmem) (by decide))
                  (fun hmem => absurd (hspec.2 '+' hmem) (by decide))
              have hfix := normalize_driveDirect_fixed hspec.1 hamp hpd hno
              rw [h0]
              exact hfix
          | none =>
              cases hg : getParam p.query (lit "id") with
              | some v =>
                  by_cases hv : v.isEmpty = true
                  · have hveq : v = [] := by simpa [List.isEmpty_iff] using hv
                    subst hveq
                    have h0 : normalizeImageUrl u = dropboxNormalize u := by
                      unfold normalizeImageUrl
                      rw [if_neg (by simp [hu']), if_pos hdrive, hp]
                      simp [hm, hg]
                    rw [h0]
                    exact normalize_fix_dropboxArm u hc hu'
                      (Or.inr ⟨hm, p, hp, Or.inr hg⟩)
                  · have h0 : normalizeImageUrl u = driveDirect v := by
                      unfold normalizeImageUrl
                      rw [if_neg (by simp [hu']), if_pos hdrive, hp]
                      simp only [hm, hg]
                      rw [if_neg (by simp [hv])]
                    obtain ⟨vr, hraw, hdec⟩ : ∃ vr, getParamRaw p.query (lit "id") = some vr
                        ∧ percentDecode vr = v := by
                      unfold getParam at hg
                      cases hraw : getParamRaw p.query (lit "id") with
                      | none =>
                          rw [hraw] at hg
                          simp at hg
                      | some vr =>
                          rw [hraw] at hg
                          exact ⟨vr, rfl, by simpa using hg⟩
                    have hvrspec := getParam_value_spec hraw
                    have hq_eq : p.query = (breakOn '?' u).2 := by
                      unfold urlParse at hp
                      exact parsePre_query hp
                    have hvrinf : vr <:+: u := by
                      have h1 : vr <:+: p.query := hvrspec.2
                      rw [hq_eq] at h1
                      exact h1.trans (breakOn_snd_suffix '?' u).isInfix
                    have hpd : percentDecode vr = vr :=
                      percentDecode_clean (fun hm2 => hpc (hvrinf.subset hm2))
                        (fun hm2 => hpl (hvrinf.subset hm2))
                    have hveq : v = vr := by rw [← hdec, hpd]
                    rw [hveq] at h0 hv
                    have hvne : vr ≠ [] := by simpa [List.isEmpty_iff] using hv
                    have hno : ∀ t, t <:+ vr → dMatchAt t = none := by
                      intro t ht
                      have hmv : matchDSlash vr = none := matchDSlash_infix_none hm hvrinf
                      exact (matchDSlash_none_iff vr).mp hmv t ht
                    have hfix := normalize_driveDirect_fixed hvne hvrspec.1 hpd hno
                    rw [h0]
                    exact hfix
              | none =>
                  have h0 : normalizeImageUrl u = dropboxNormalize u := by
                    unfold normalizeImageUrl
                    rw [if_neg (by simp [hu']), if_pos hdrive, hp]
                    simp only [hm, hg]
                  rw [h0]
                  exact normalize_fix_dropboxArm u hc hu'
                    (Or.inr ⟨hm, p, hp, Or.inl hg⟩)
    · have hdrive' : containsStr (lit "drive.google.com") u = false := by
        cases hval : containsStr (lit "drive.google.com") u
        · rfl
        · exact absurd hval hdrive
      have h0 : normalizeImageUrl u = dropboxNormalize u := by
        unfold normalizeImageUrl
        rw [if_neg (by simp [hu']), if_neg (by simp [hdrive'])]
      rw [h0]
      exact normalize_fix_dropboxArm u hc hu' (Or.inl hdrive')

/-- C7 counterexample: a dropbox share URL whose `dl=0` flag follows another
query parameter (`?foo=1&dl=0`) is **not** rewritten — the code only replaces
the literal substring `?dl=0`, so the URL keeps its `dl=0` share flag; and
normalization is not idempotent: on a string with two `?dl=0` occurrences the
second pass rewrites again, and even with a single `?` a percent-escaped
drive id (`?id=%2Fd%2Fabc`, which `searchParams.get` decodes to `/d/abc`)
yields a direct-view URL that the second pass rewrites again through the
`/d/<id>` regex. -/
theorem normalizeImageUrl_counterexample :
    normalizeImageUrl (lit "https://www.dropbox.com/s/abc/file.png?foo=1&dl=0")
        = lit "https://www.dropbox.com/s/abc/file.png?foo=1&dl=0"
    ∧ containsStr (lit "dl=0") (lit "https://www.dropbox.com/s/abc/file.png?foo=1&dl=0") = true
    ∧ normalizeImageUrl (normalizeImageUrl (lit "https://www.dropbox.com/s/a?dl=0x?dl=0"))
        ≠ normalizeImageUrl (lit "https://www.dropbox.com/s/a?dl=0x?dl=0")
    ∧ List.count '?' (lit "https://drive.google.com/x?id=%2Fd%2Fabc") ≤ 1
    ∧ normalizeImageUrl (lit "https://drive.google.com/x?id=%2Fd%2Fabc")
        = driveDirect (lit "/d/abc")
    ∧ normalizeImageUrl (normalizeImageUrl (lit "https://drive.google.com/x?id=%2Fd%2Fabc"))
        ≠ normalizeImageUrl (lit "https://drive.google.com/x?id=%2Fd%2Fabc") := by
  refine ⟨by decide, by decide, by decide, by decide, by decide, by decide⟩

/-- C7 amended: `normalizeImageUrl` (1) leaves strings mentioning neither host
unchanged; (2) rewrites a drive URL with a `/d/<id>` regex match to the direct
`uc?export=view&id=` form, (3) likewise for a parseable drive URL with a
non-empty `id` query parameter, as `searchParams.get` returns it
percent-decoded; (4) for dropbox URLs it only replaces the first literal
`?dl=0` (then `?dl=1`) substring — a `dl=0` flag preceded by another query
parameter is left as is — and appends `?raw=1` when the URL has no query; and
(5) it is idempotent on every URL with at most one `?` and no percent-escape
or `+` (re-normalizing an already-normalized such URL is a no-op; with an
escape the decoded id can re-trigger the `/d/` rewrite, see the
counterexample). -/
theorem normalizeImageUrl_amended :
    (∀ u, containsStr (lit "drive.google.com") u = false →
        containsStr (lit "dropbox.com") u = false → normalizeImageUrl u = u)
    ∧ (∀ u p fid, u.isEmpty = false → containsStr (lit "drive.google.com") u = true →
        urlParse u = some p → matchDSlash u = some fid →
        normalizeImageUrl u = driveDirect fid)
    ∧ (∀ u p v, u.isEmpty = false → containsStr (lit "drive.google.com") u = true →
        urlParse u = some p → matchDSlash u = none →
        getParam p.query (lit "id") = some v → v ≠ [] →
        normalizeImageUrl u = driveDirect v)
    ∧ (∀ u, u.isEmpty = false → containsStr (lit "drive.google.com") u = false →
        containsStr (lit "dropbox.com") u = true →
        (containsStr (lit "?") u = true →
          normalizeImageUrl u
            = replaceFirst (lit "?dl=1") (lit "?raw=1")
                (replaceFirst (lit "?dl=0") (lit "?raw=1") u))
        ∧ (containsStr (lit "?") u = false → normalizeImageUrl u = u ++ lit "?raw=1"))
    ∧ (∀ u, List.count '?' u ≤ 1 → ('%' : Char) ∉ u → ('+' : Char) ∉ u →
        normalizeImageUrl (normalizeImageUrl u) = normalizeImageUrl u) := by
  refine ⟨?_, ?_, ?_, ?_, normalizeImageUrl_idem⟩
  · intro u hdr hdb
    by_cases hu : u.isEmpty = true
    · unfold normalizeImageUrl
      rw [if_pos hu]
    · unfold normalizeImageUrl
      rw [if_neg hu, if_neg (by simp [hdr])]
      unfold dropboxNormalize
      rw [if_neg (by simp [hdb])]
  · intro u p fid hu hdr hp hm
    unfold normalizeImageUrl
    rw [if_neg (by simp [hu]), if_pos hdr, hp]
    simp only [hm]
  · intro u p v hu hdr hp hm hg hv
    unfold normalizeImageUrl
    rw [if_neg (by simp [hu]), if_pos hdr, hp]
    simp only [hm, hg]
    rw [if_neg (by simp [List.isEmpty_iff, hv])]
  · intro u hu hdr hdb
    have h0 : normalizeImageUrl u = dropboxNormalize u := by
      unfold normalizeImageUrl
      rw [if_neg (by simp [hu]), if_neg (by simp [hdr])]
    constructor
    · intro hq
      rw [h0]
      unfold dropboxNormalize
      rw [if_pos hdb, if_pos hq]
    · intro hq
      rw [h0]
      unfold dropboxNormalize
      rw [if_pos hdb, if_neg (by simp [hq])]

/-- Witness for the C7 amended theorem at concrete inputs: a standard drive
share link is rewritten to the direct form, a drive link whose `id` parameter
carries a percent-escape is rewritten to the decoded id, and normalizing a
standard dropbox share link twice equals normalizing it once. -/
theorem normalizeImageUrl_amended_witness :
    normalizeImageUrl (lit "https://drive.google.com/file/d/abc/view?usp=sharing")
        = driveDirect (lit "abc")
    ∧ normalizeImageUrl (lit "https://drive.google.com/open?id=a%2Db")
        = driveDirect (lit "a-b")
    ∧ normalizeImageUrl
        (normalizeImageUrl (lit "https://www.dropbox.com/s/x/file.png?dl=0"))
      = normalizeImageUrl (lit "https://www.dropbox.com/s/x/file.png?dl=0") :=
  ⟨normalizeImageUrl_amended.2.1 (lit "https://drive.google.com/file/d/abc/view?usp=sharing")
      { scheme := lit "https", host := lit "drive.google.com", port := [],
        pathname := lit "/file/d/abc/view", query := lit "usp=sharing" }
      (lit "abc") (by decide) (by decide) (by decide) (by decide),
    normalizeImageUrl_amended.2.2.1 (lit "https://drive.google.com/open?id=a%2Db")
      { scheme := lit "https", host := lit "drive.google.com", port := [],
        pathname := lit "/open", query := lit "id=a%2Db" }
      (lit "a-b") (by decide) (by decide) (by decide) (by decide) (by decide) (by decide),
    normalizeImageUrl_amended.2.2.2.2 (lit "https://www.dropbox.com/s/x/file.png?dl=0")
      (by decide) (by decide) (by decide)⟩

end PhotoCard
